import Mathlib

/-!
# Verification of the job-queue / worker-pool core of `ai_developer`

Shallow embedding of `src/queue/job-queue.ts` (class `JobQueue`) and of the
worker poll loop in the worker-pool source file.  The Redis store used by the
queue (`src/database/redis.ts`, a thin wrapper over a real Redis client) is
modelled by explicit state: a Redis list is a `List Nat` (`lpush` prepends,
`lpop` pops the head), a Redis hash is an association list with unique keys,
a Redis set is a duplicate-free `List Nat`, and the JSON key-value store of
job records is an association list from job id to `Job`.

Job ids in the source are `Date.now()-randomUUID()` strings, unique by
construction; they are modelled by a counter `nextId` carried in the state.
Times (`Date.now()`) and durations are `Nat` milliseconds.
-/

namespace AiDev

/-- `JobStatus` from `core/types.ts`:
`"waiting" | "active" | "completed" | "failed" | "delayed"`. -/
inductive JStatus where
  | waiting
  | active
  | completed
  | failed
  | delayed
deriving Repr, DecidableEq

/-- The `Job<T>` record from `core/types.ts`, payload fixed to `String`.
Timestamps are `Nat` milliseconds, optional ones `Option Nat`. -/
structure Job where
  id : Nat
  name : String
  data : String
  status : JStatus
  priority : Int
  attempts : Nat
  maxAttempts : Nat
  createdAt : Nat
  startedAt : Option Nat := none
  completedAt : Option Nat := none
  failedAt : Option Nat := none
  error : Option String := none
  result : Option String := none
deriving Repr, DecidableEq

/-- `JobOptions` from `core/types.ts`: all fields optional. -/
structure JobOptions where
  priority : Option Int := none
  delay : Option Nat := none
  attempts : Option Nat := none
  timeout : Option Nat := none
  retryDelay : Option Nat := none
deriving Repr, DecidableEq

/-- The queue-relevant part of `config` (`core/config.ts`): `config.queue`. -/
structure QueueConfig where
  maxJobs : Nat
  retryAttempts : Nat
  retryDelay : Nat
  jobTimeout : Nat
deriving Repr, DecidableEq

/-- The `Required JobOptions` record built in the `JobQueue` constructor
(`defaultOptions`), after merging caller options over the defaults. -/
structure MergedOptions where
  priority : Int
  delay : Nat
  attempts : Nat
  timeout : Nat
  retryDelay : Nat
deriving Repr, DecidableEq

/-- `const opts = { ...this.defaultOptions, ...options }`: every field the
caller supplied overrides the queue default. -/
def mergeOpts (cfg : QueueConfig) (o : JobOptions) : MergedOptions :=
  { priority := o.priority.getD 0
    delay := o.delay.getD 0
    attempts := o.attempts.getD cfg.retryAttempts
    timeout := o.timeout.getD cfg.jobTimeout
    retryDelay := o.retryDelay.getD cfg.retryDelay }

/-- `QueueError` taxonomy raised by `JobQueue` methods. -/
inductive QueueError where
  | queueFull (maxJobs : Nat)
  | jobNotFound (id : Nat)
deriving Repr, DecidableEq

/-! ## Redis primitives (state-passing model of `redis.ts`)

`aget`/`aset`/`adel` model both the Redis hash commands (`hget`/`hgetall`,
`hset`, `hdel`) used for the `delayed` ready-times and the JSON key-value
commands (`getJSON`, `setJSON`) used for the `job:<id>` records: field keys
are unique, `aset` updates in place when the key exists and appends
otherwise, mirroring hash/keyspace semantics. -/

/-- Keyed read (`hget` / `getJSON`). -/
def aget {β : Type} (k : Nat) (l : List (Nat × β)) : Option β :=
  (l.find? (fun p => p.1 = k)).map (fun p => p.2)

/-- Keyed upsert (`hset` / `setJSON`). -/
def aset {β : Type} (k : Nat) (v : β) (l : List (Nat × β)) : List (Nat × β) :=
  if l.any (fun p => p.1 = k) then
    l.map (fun p => if p.1 = k then (k, v) else p)
  else l ++ [(k, v)]

/-- Keyed delete (`hdel` / `delete`). -/
def adel {β : Type} (k : Nat) (l : List (Nat × β)) : List (Nat × β) :=
  l.filter (fun p => p.1 ≠ k)

/-- Set add `sadd` (no duplicates). -/
def sadd (k : Nat) (s : List Nat) : List Nat :=
  if k ∈ s then s else s ++ [k]

/-- Set remove `srem`. -/
def srem (k : Nat) (s : List Nat) : List Nat :=
  s.filter (fun x => x ≠ k)

/-! ## Queue state -/

/-- The Redis keyspace owned by one `JobQueue` instance:
`waiting` list, `delayed` hash (job id to ready-time), `active`, `completed`
and `failed` sets, and the `job:<id>` records.  `nextId` models the
uniqueness of generated job ids. -/
structure QueueState where
  waiting : List Nat
  delayed : List (Nat × Nat)
  active : List Nat
  completed : List Nat
  failed : List Nat
  jobs : List (Nat × Job)
  nextId : Nat
deriving Repr, DecidableEq

/-- The empty keyspace. -/
def emptyQS : QueueState :=
  { waiting := [], delayed := [], active := [], completed := [], failed := []
    jobs := [], nextId := 0 }

/-! ## Queue operations (from `job-queue.ts`) -/

/-- `JobQueue.addToQueue(jobId, priority)`: the source performs
`redis.lpush(waiting, jobId)` in *both* branches of the priority test
(lines 100-106), so priority has no effect on placement. -/
def addToQueue (jobId : Nat) (priority : Int) (st : QueueState) : QueueState :=
  if priority > 0 then { st with waiting := jobId :: st.waiting }
  else { st with waiting := jobId :: st.waiting }

/-- `JobQueue.add(name, data, options)` (lines 44-92): reject when
`llen(waiting) >= maxJobs`, else create the record, then either store a
ready-time of `now + delay` in the `delayed` hash (when `delay > 0`) or push
the id onto the waiting list. -/
def add (cfg : QueueConfig) (st : QueueState) (now : Nat) (name data : String)
    (options : JobOptions) : Except QueueError (Job × QueueState) :=
  if st.waiting.length ≥ cfg.maxJobs then
    .error (.queueFull cfg.maxJobs)
  else
    let opts := mergeOpts cfg options
    let jobId := st.nextId
    let job : Job :=
      { id := jobId, name := name, data := data
        status := if opts.delay > 0 then .delayed else .waiting
        priority := opts.priority, attempts := 0, maxAttempts := opts.attempts
        createdAt := now }
    let st1 := { st with jobs := aset jobId job st.jobs, nextId := st.nextId + 1 }
    if opts.delay > 0 then
      .ok (job, { st1 with delayed := aset jobId (now + opts.delay) st1.delayed })
    else
      .ok (job, addToQueue jobId opts.priority st1)

/-- One iteration of the `processDelayedJobs` loop body (lines 157-169),
for the snapshot entry `(jobId, delayedUntil)`: when the ready-time has
elapsed and the record exists, set its status to `waiting`, push the id onto
the waiting list and delete the hash entry. -/
def promoteOne (now : Nat) (st : QueueState) (p : Nat × Nat) : QueueState :=
  if p.2 ≤ now then
    match aget p.1 st.jobs with
    | some job =>
        let job1 := { job with status := .waiting }
        let st1 := { st with jobs := aset p.1 job1 st.jobs }
        let st2 := addToQueue p.1 job1.priority st1
        { st2 with delayed := adel p.1 st2.delayed }
    | none => st
  else st

/-- `JobQueue.processDelayedJobs()` (lines 150-174): iterate over the
`hgetall` snapshot of the `delayed` hash, promoting every elapsed entry. -/
def processDelayedJobs (now : Nat) (st : QueueState) : QueueState :=
  st.delayed.foldl (promoteOne now) st

/-- `JobQueue.getNextJob()` (lines 112-145): `lpop` the waiting list first;
when the pop returns nothing, run `processDelayedJobs` and return `none`
(without popping again).  When an id is popped but its record is absent,
log a warning and return `none` (the id stays removed).  Otherwise mark the
record active, stamp `startedAt`, `sadd` it to the active set and return it. -/
def getNextJob (now : Nat) (st : QueueState) : Option Job × QueueState :=
  match st.waiting with
  | [] => (none, processDelayedJobs now st)
  | jobId :: rest =>
      let st1 := { st with waiting := rest }
      match aget jobId st1.jobs with
      | none => (none, st1)
      | some job =>
          let job1 := { job with status := .active, startedAt := some now }
          (some job1,
            { st1 with jobs := aset jobId job1 st1.jobs
                       active := sadd jobId st1.active })

/-- `JobQueue.calculateRetryDelay(attempts)` (lines 257-260):
`min(retryDelay * 2 ^ (attempts - 1), 300000)`; `retryDelay` is the
queue-wide default from `config.queue.retryDelay`, never a per-job value. -/
def calculateRetryDelay (cfg : QueueConfig) (attempts : Nat) : Nat :=
  min (cfg.retryDelay * 2 ^ (attempts - 1)) 300000

/-- `JobQueue.completeJob(jobId, result)` (lines 179-203). -/
def completeJob (now : Nat) (jobId : Nat) (result : String) (st : QueueState) :
    Except QueueError QueueState :=
  match aget jobId st.jobs with
  | none => .error (.jobNotFound jobId)
  | some job =>
      let job1 := { job with status := .completed, completedAt := some now
                             result := some result }
      .ok { st with jobs := aset jobId job1 st.jobs
                    active := srem jobId st.active
                    completed := sadd jobId st.completed }

/-- `JobQueue.failJob(jobId, error)` (lines 208-252): increment `attempts`;
when `attempts < maxAttempts` set status to `waiting` (line 222), remove
from the active set and store `now + calculateRetryDelay(attempts)` in the
`delayed` hash; otherwise set status `failed`, stamp `failedAt`, remove from
active and add to the failed set. -/
def failJob (cfg : QueueConfig) (now : Nat) (jobId : Nat) (e : String)
    (st : QueueState) : Except QueueError QueueState :=
  match aget jobId st.jobs with
  | none => .error (.jobNotFound jobId)
  | some job =>
      let job1 := { job with attempts := job.attempts + 1, error := some e }
      if job1.attempts < job1.maxAttempts then
        let job2 := { job1 with status := .waiting }
        let st1 := { st with jobs := aset jobId job2 st.jobs
                             active := srem jobId st.active }
        let retryDelay := calculateRetryDelay cfg job2.attempts
        .ok { st1 with delayed := aset jobId (now + retryDelay) st1.delayed }
      else
        let job2 := { job1 with status := .failed, failedAt := some now }
        .ok { st with jobs := aset jobId job2 st.jobs
                      active := srem jobId st.active
                      failed := sadd jobId st.failed }

/-- The timeout chosen by `Worker.processJob` (worker source, line 127):
`const timeoutMs = config.queue.jobTimeout` — the job itself is not
consulted. -/
def timeoutForJob (cfg : QueueConfig) (_job : Job) : Nat :=
  cfg.jobTimeout

/-! ## Association-list and set lemmas -/

theorem find?_update_self {β : Type} (k : Nat) (v : β) (l : List (Nat × β))
    (h : l.any (fun p => p.1 = k) = true) :
    (l.map (fun p => if p.1 = k then (k, v) else p)).find? (fun p => p.1 = k) =
      some (k, v) := by
  induction l with
  | nil => simp at h
  | cons p t ih =>
      simp only [List.map_cons]
      by_cases hp : p.1 = k
      · rw [if_pos hp, List.find?_cons_of_pos _ (by simp)]
      · rw [if_neg hp, List.find?_cons_of_neg _ (by simpa using hp)]
        apply ih
        simp only [List.any_cons, Bool.or_eq_true, decide_eq_true_eq] at h
        rcases h with h | h
        · exact absurd h hp
        · simpa using h

theorem find?_update_ne {β : Type} (k kq : Nat) (v : β) (l : List (Nat × β))
    (h : kq ≠ k) :
    (l.map (fun p => if p.1 = k then (k, v) else p)).find? (fun p => p.1 = kq) =
      l.find? (fun p => p.1 = kq) := by
  induction l with
  | nil => rfl
  | cons p t ih =>
      simp only [List.map_cons]
      by_cases hp : p.1 = k
      · rw [if_pos hp,
          List.find?_cons_of_neg _ (by simp; exact Ne.symm h),
          List.find?_cons_of_neg _ (by simp [hp]; exact Ne.symm h)]
        exact ih
      · rw [if_neg hp]
        by_cases hpk : p.1 = kq
        · rw [List.find?_cons_of_pos _ (by simpa using hpk),
            List.find?_cons_of_pos _ (by simpa using hpk)]
        · rw [List.find?_cons_of_neg _ (by simpa using hpk),
            List.find?_cons_of_neg _ (by simpa using hpk)]
          exact ih

theorem find?_none_of_any_false {β : Type} (k : Nat) (l : List (Nat × β))
    (h : ¬ l.any (fun p => p.1 = k) = true) :
    l.find? (fun p => p.1 = k) = none := by
  rw [List.find?_eq_none]
  intro x hx
  simp only [List.any_eq_true, decide_eq_true_eq] at h
  simp only [decide_eq_true_eq]
  exact fun hc => h ⟨x, hx, hc⟩

theorem aget_aset_self {β : Type} (k : Nat) (v : β) (l : List (Nat × β)) :
    aget k (aset k v l) = some v := by
  unfold aget aset
  by_cases h : l.any (fun p => p.1 = k) = true
  · rw [if_pos h, find?_update_self k v l h]
    rfl
  · rw [if_neg h, List.find?_append, find?_none_of_any_false k l h]
    simp [List.find?]

theorem aget_aset_ne {β : Type} (k kq : Nat) (v : β) (l : List (Nat × β))
    (h : kq ≠ k) : aget kq (aset k v l) = aget kq l := by
  unfold aget aset
  by_cases ha : l.any (fun p => p.1 = k) = true
  · rw [if_pos ha, find?_update_ne k kq v l h]
  · rw [if_neg ha, List.find?_append]
    have hone : List.find? (fun p => p.1 = kq) [(k, v)] = none := by
      rw [List.find?_cons_of_neg _ (by simp; exact Ne.symm h)]
      rfl
    rw [hone, Option.or_none]

theorem aget_adel_self {β : Type} (k : Nat) (l : List (Nat × β)) :
    aget k (adel k l) = none := by
  unfold aget adel
  have hfn : (l.filter (fun p => p.1 ≠ k)).find? (fun p => p.1 = k) = none := by
    rw [List.find?_eq_none]
    intro x hx
    simp only [List.mem_filter, decide_eq_true_eq] at hx
    simpa using hx.2
  rw [hfn]
  rfl

theorem aget_adel_ne {β : Type} (k kq : Nat) (l : List (Nat × β))
    (h : kq ≠ k) : aget kq (adel k l) = aget kq l := by
  unfold aget adel
  congr 1
  induction l with
  | nil => rfl
  | cons p t ih =>
      simp only [List.filter_cons]
      by_cases hp : p.1 = k
      · rw [if_neg (by simpa using hp)]
        rw [List.find?_cons_of_neg _ (by simp [hp]; exact Ne.symm h)]
        exact ih
      · rw [if_pos (by simpa using hp)]
        by_cases hpk : p.1 = kq
        · rw [List.find?_cons_of_pos _ (by simpa using hpk),
            List.find?_cons_of_pos _ (by simpa using hpk)]
        · rw [List.find?_cons_of_neg _ (by simpa using hpk),
            List.find?_cons_of_neg _ (by simpa using hpk)]
          exact ih

theorem mem_srem_iff (k x : Nat) (s : List Nat) :
    x ∈ srem k s ↔ x ∈ s ∧ x ≠ k := by
  unfold srem
  simp [List.mem_filter]

theorem not_mem_srem (k : Nat) (s : List Nat) : k ∉ srem k s := by
  rw [mem_srem_iff]
  exact fun h => h.2 rfl

theorem mem_sadd_iff (k x : Nat) (s : List Nat) :
    x ∈ sadd k s ↔ x ∈ s ∨ x = k := by
  unfold sadd
  by_cases h : k ∈ s
  · simp only [h, if_true]
    constructor
    · exact Or.inl
    · rintro (hx | rfl)
      · exact hx
      · exact h
  · simp [h, or_comm]

/-! ## Claim theorems -/

/-- The default `config.queue` values from `core/config.ts`
(QUEUE_MAX_JOBS 1000, QUEUE_RETRY_ATTEMPTS 3, QUEUE_RETRY_DELAY 60000,
QUEUE_JOB_TIMEOUT 600000). -/
def cfgDefault : QueueConfig :=
  { maxJobs := 1000, retryAttempts := 3, retryDelay := 60000
    jobTimeout := 600000 }

/-- C5: whenever the waiting-list length is at or above `maxJobs`, `add`
raises the queue-full error and creates no job record: the capacity check is
the first statement of `JobQueue.add`, before any write, and the error
return carries no state change. -/
theorem C5_enqueue_at_capacity_rejected (cfg : QueueConfig) (st : QueueState)
    (now : Nat) (name data : String) (o : JobOptions)
    (h : cfg.maxJobs ≤ st.waiting.length) :
    add cfg st now name data o = .error (.queueFull cfg.maxJobs) := by
  unfold add
  rw [if_pos h]

/-- Witness for C5 at a concrete full queue (capacity 1, one waiting id). -/
theorem C5_enqueue_at_capacity_rejected_witness :
    add { cfgDefault with maxJobs := 1 } { emptyQS with waiting := [7] } 0
        "n" "d" {} =
      .error (.queueFull 1) :=
  C5_enqueue_at_capacity_rejected _ _ _ _ _ _ (by decide)

/-- C10: when `getNextJob` pops an id whose `job:<id>` record is absent, it
returns `none` without raising and without re-queuing: the only state change
is that the id has been popped off the waiting list (the source merely logs
a warning at line 127), so the job is silently lost. -/
theorem C10_missing_record_silently_dropped (st : QueueState)
    (now jobId : Nat) (rest : List Nat) (hw : st.waiting = jobId :: rest)
    (hj : aget jobId st.jobs = none) :
    getNextJob now st = (none, { st with waiting := rest }) := by
  unfold getNextJob
  rw [hw]
  simp [hj]

/-- Witness for C10: id 7 is waiting but has no record. -/
theorem C10_missing_record_silently_dropped_witness :
    getNextJob 0 { emptyQS with waiting := [7] } =
      (none, { { emptyQS with waiting := [7] } with waiting := ([] : List Nat) }) :=
  C10_missing_record_silently_dropped _ 0 7 [] rfl rfl

/-- C9: the `timeout` and `retryDelay` fields of `JobOptions` have no effect:
two `add` calls whose options agree on `priority`, `delay` and `attempts`
(differing arbitrarily in `timeout` and `retryDelay`) produce identical
results and states, and the timeout the worker races the handler against is
always the pool-wide `config.queue.jobTimeout`, whatever the job. -/
theorem C9_timeout_retryDelay_options_ignored (cfg : QueueConfig)
    (st : QueueState) (now : Nat) (name data : String) (o1 o2 : JobOptions)
    (hp : o1.priority = o2.priority) (hd : o1.delay = o2.delay)
    (ha : o1.attempts = o2.attempts) :
    add cfg st now name data o1 = add cfg st now name data o2 ∧
      ∀ j : Job, timeoutForJob cfg j = cfg.jobTimeout := by
  refine ⟨?_, fun j => rfl⟩
  have h1 : (mergeOpts cfg o1).delay = (mergeOpts cfg o2).delay := by
    simp [mergeOpts, hd]
  have h2 : (mergeOpts cfg o1).priority = (mergeOpts cfg o2).priority := by
    simp [mergeOpts, hp]
  have h3 : (mergeOpts cfg o1).attempts = (mergeOpts cfg o2).attempts := by
    simp [mergeOpts, ha]
  simp only [add, h1, h2, h3]

/-- Witness for C9: options differing only in `timeout` and `retryDelay`. -/
theorem C9_timeout_retryDelay_options_ignored_witness :
    add cfgDefault emptyQS 0 "n" "d"
          { timeout := some 1, retryDelay := some 2 } =
        add cfgDefault emptyQS 0 "n" "d" {} ∧
      ∀ j : Job, timeoutForJob cfgDefault j = cfgDefault.jobTimeout :=
  C9_timeout_retryDelay_options_ignored cfgDefault emptyQS 0 "n" "d"
    { timeout := some 1, retryDelay := some 2 } {} rfl rfl rfl

/-- A one-job queue state used by several counterexamples: job 0 is `active`
with `attempts = 0`, `maxAttempts = 3`. -/
def stActive0 : QueueState :=
  { emptyQS with
      active := [0]
      jobs := [(0, { id := 0, name := "n", data := "d", status := .active
                     priority := 0, attempts := 0, maxAttempts := 3
                     createdAt := 0 })]
      nextId := 1 }

/-- C2 counterexample: `failJob` on active job 0 (attempts 0, maxAttempts 3,
so retryable) does NOT set the status field to `delayed` — line 222 of
`job-queue.ts` sets `job.status = "waiting"` even though the id is parked in
the `delayed` hash.  The claim "sets the job's status to Delayed" is false
at this input. -/
theorem C2_status_not_delayed_counterexample :
    ∃ st1, failJob cfgDefault 100 0 "boom" stActive0 = .ok st1 ∧
      (aget 0 st1.jobs).map Job.status = some JStatus.waiting ∧
      ¬ (aget 0 st1.jobs).map Job.status = some JStatus.delayed := by
  refine ⟨_, rfl, ?_, ?_⟩ <;> decide

/-- C2 (amended): for a retryable failure (`attempts + 1 < maxAttempts`),
`failJob` increments `attempts`, sets the status field to `waiting` (not
`Delayed` — the only deviation from the claim), removes the id from the
active set, and parks the id in the delayed partition with ready-time
`now + min(retryBaseDelay * 2^(attempts-1), 300000)` computed from the
post-increment attempt count; that backoff is capped at 300000 ms and is
strictly increasing in the attempt count until the cap is reached. -/
theorem C2_failJob_retry_backoff (cfg : QueueConfig) (st : QueueState)
    (now jobId : Nat) (e : String) (job : Job)
    (hj : aget jobId st.jobs = some job)
    (hlt : job.attempts + 1 < job.maxAttempts) :
    ∃ st1,
      failJob cfg now jobId e st = .ok st1 ∧
      aget jobId st1.jobs =
        some { job with attempts := job.attempts + 1, error := some e
                        status := .waiting } ∧
      jobId ∉ st1.active ∧
      aget jobId st1.delayed =
        some (now + calculateRetryDelay cfg (job.attempts + 1)) ∧
      calculateRetryDelay cfg (job.attempts + 1) =
        min (cfg.retryDelay * 2 ^ job.attempts) 300000 ∧
      calculateRetryDelay cfg (job.attempts + 1) ≤ 300000 ∧
      (∀ a, 1 ≤ cfg.retryDelay → 1 ≤ a →
        calculateRetryDelay cfg a < 300000 →
        calculateRetryDelay cfg a < calculateRetryDelay cfg (a + 1)) := by
  have hfj : failJob cfg now jobId e st =
      .ok { st with
              jobs := aset jobId
                { job with attempts := job.attempts + 1, error := some e
                           status := .waiting } st.jobs
              active := srem jobId st.active
              delayed := aset jobId
                (now + calculateRetryDelay cfg (job.attempts + 1)) st.delayed } := by
    simp only [failJob, hj]
    split
    · rfl
    · next hc => exact absurd hlt (by simpa using hc)
  refine ⟨_, hfj, ?_, ?_, ?_, ?_, ?_, ?_⟩
  · exact aget_aset_self _ _ _
  · exact not_mem_srem _ _
  · exact aget_aset_self _ _ _
  · unfold calculateRetryDelay
    simp
  · exact min_le_right _ _
  · intro a hb ha hcap
    unfold calculateRetryDelay at hcap ⊢
    have hx : cfg.retryDelay * 2 ^ (a - 1) < 300000 := by
      rcases lt_or_ge (cfg.retryDelay * 2 ^ (a - 1)) 300000 with h | h
      · exact h
      · rw [min_eq_right h] at hcap
        omega
    rw [min_eq_left (le_of_lt hx)]
    have hpow : 2 ^ (a + 1 - 1) = 2 ^ (a - 1) * 2 := by
      have h1 : a + 1 - 1 = (a - 1) + 1 := by omega
      rw [h1, pow_succ]
    apply lt_min
    · rw [hpow]
      have hpos : 0 < cfg.retryDelay * 2 ^ (a - 1) :=
        Nat.mul_pos hb (Nat.pos_pow_of_pos _ (by norm_num))
      calc cfg.retryDelay * 2 ^ (a - 1)
          < cfg.retryDelay * 2 ^ (a - 1) * 2 := by omega
        _ = cfg.retryDelay * (2 ^ (a - 1) * 2) := by ring
    · exact hx

/-- Witness for C2 (amended) at the concrete state `stActive0`. -/
theorem C2_failJob_retry_backoff_witness :
    ∃ st1,
      failJob cfgDefault 100 0 "boom" stActive0 = .ok st1 ∧
      aget 0 st1.jobs =
        some { id := 0, name := "n", data := "d", status := .waiting
               priority := 0, attempts := 1, maxAttempts := 3, createdAt := 0
               error := some "boom" } ∧
      (0 : Nat) ∉ st1.active ∧
      aget 0 st1.delayed = some (100 + calculateRetryDelay cfgDefault 1) ∧
      calculateRetryDelay cfgDefault 1 =
        min (cfgDefault.retryDelay * 2 ^ 0) 300000 ∧
      calculateRetryDelay cfgDefault 1 ≤ 300000 ∧
      (∀ a, 1 ≤ cfgDefault.retryDelay → 1 ≤ a →
        calculateRetryDelay cfgDefault a < 300000 →
        calculateRetryDelay cfgDefault a < calculateRetryDelay cfgDefault (a + 1)) :=
  C2_failJob_retry_backoff cfgDefault stActive0 100 0 "boom" _ rfl (by decide)

/-! ## Computation lemmas for the queue operations -/

/-- Both branches of `addToQueue` perform the same `lpush`. -/
theorem addToQueue_eq (jobId : Nat) (priority : Int) (st : QueueState) :
    addToQueue jobId priority st = { st with waiting := jobId :: st.waiting } := by
  unfold addToQueue
  split <;> rfl

/-- `promoteOne` on an entry whose ready-time has not elapsed is a no-op. -/
theorem promoteOne_notReady (now : Nat) (st : QueueState) (p : Nat × Nat)
    (h : ¬ p.2 ≤ now) : promoteOne now st p = st := by
  unfold promoteOne
  rw [if_neg h]

/-- `promoteOne` on an entry whose record is absent is a no-op. -/
theorem promoteOne_noRecord (now : Nat) (st : QueueState) (p : Nat × Nat)
    (h : aget p.1 st.jobs = none) : promoteOne now st p = st := by
  unfold promoteOne
  split
  · rw [h]
  · rfl

/-- `promoteOne` on an elapsed entry with an existing record: set the record
status to `waiting`, push the id, drop the hash entry. -/
theorem promoteOne_ready (now : Nat) (st : QueueState) (p : Nat × Nat)
    (job : Job) (hp : p.2 ≤ now) (hj : aget p.1 st.jobs = some job) :
    promoteOne now st p =
      { st with jobs := aset p.1 { job with status := .waiting } st.jobs
                waiting := p.1 :: st.waiting
                delayed := adel p.1 st.delayed } := by
  unfold promoteOne
  rw [if_pos hp]
  simp only [hj]
  rw [addToQueue_eq]

/-- Inversion of a successful `add`: the capacity check passed, the returned
job is fully determined, and the state change depends on whether the merged
delay is positive. -/
theorem add_ok_inv (cfg : QueueConfig) (st : QueueState) (now : Nat)
    (name data : String) (o : JobOptions) (j : Job) (st1 : QueueState)
    (h : add cfg st now name data o = .ok (j, st1)) :
    st.waiting.length < cfg.maxJobs ∧
    j = { id := st.nextId, name := name, data := data
          status := if (mergeOpts cfg o).delay > 0 then .delayed else .waiting
          priority := (mergeOpts cfg o).priority, attempts := 0
          maxAttempts := (mergeOpts cfg o).attempts, createdAt := now } ∧
    ((mergeOpts cfg o).delay > 0 →
      st1 = { st with jobs := aset st.nextId j st.jobs
                      nextId := st.nextId + 1
                      delayed := aset st.nextId (now + (mergeOpts cfg o).delay)
                        st.delayed }) ∧
    (¬ (mergeOpts cfg o).delay > 0 →
      st1 = { st with jobs := aset st.nextId j st.jobs
                      nextId := st.nextId + 1
                      waiting := st.nextId :: st.waiting }) := by
  simp only [add, addToQueue_eq] at h
  split at h
  · exact absurd h (by simp)
  · next hfull =>
    refine ⟨by omega, ?_⟩
    split at h
    · next hdel =>
      injection h with h
      injection h with hja hst
      rw [if_pos hdel]
      refine ⟨hja.symm, fun _ => ?_, fun hn => absurd hdel hn⟩
      rw [← hst, ← hja]
    · next hdel =>
      injection h with h
      injection h with hja hst
      rw [if_neg hdel]
      refine ⟨hja.symm, fun hd => absurd hd hdel, fun _ => ?_⟩
      rw [← hst, ← hja]

/-- A queue holding exactly one delayed job (id 0, ready at time 5). -/
def stDelayed5 : QueueState :=
  { emptyQS with
      delayed := [(0, 5)]
      jobs := [(0, { id := 0, name := "n", data := "d", status := .delayed
                     priority := 0, attempts := 0, maxAttempts := 3
                     createdAt := 0 })]
      nextId := 1 }

/-- C3 counterexample: enqueue a job with `delay = 5` at time 0 into the
empty queue; the first `dequeue` made at time 10 — well after the ready-time
— returns `none`, not the job.  `getNextJob` pops the waiting list *before*
promoting: on an empty pop it runs `processDelayedJobs` and then returns
null without popping again (lines 117-122), so promotion costs one call and
the job is only returned by the following call. -/
theorem C3_first_dequeue_after_delay_counterexample :
    ∃ j st1, add cfgDefault emptyQS 0 "n" "d" { delay := some 5 } = .ok (j, st1) ∧
      (getNextJob 10 st1).1 = none ∧
      (getNextJob 11 (getNextJob 10 st1).2).1.map Job.id = some j.id := by
  refine ⟨_, _, rfl, ?_, ?_⟩ <;> decide

/-- C3 (amended): `dequeue` promotes elapsed `Delayed` jobs only when the
pop of the waiting list came back empty, and that same call returns nil.
For a single job with ready-time `r` in an otherwise empty queue: every
dequeue strictly before `r` returns nil and leaves the state unchanged; the
first dequeue at `t ≥ r` still returns nil but moves the job into `waiting`;
the dequeue after that returns the job. -/
theorem C3_promotion_needs_two_dequeues (st : QueueState) (id0 r t t2 : Nat)
    (jb : Job) (hw : st.waiting = []) (hd : st.delayed = [(id0, r)])
    (hj : aget id0 st.jobs = some jb) (hid : jb.id = id0) (hrt : r ≤ t) :
    (∀ t0, t0 < r → getNextJob t0 st = (none, st)) ∧
    (getNextJob t st).1 = none ∧
    (getNextJob t st).2.waiting = [id0] ∧
    (getNextJob t2 (getNextJob t st).2).1.map Job.id = some id0 := by
  have hP : getNextJob t st =
      (none, { st with jobs := aset id0 { jb with status := .waiting } st.jobs
                       waiting := [id0]
                       delayed := adel id0 st.delayed }) := by
    simp only [getNextJob, hw, processDelayedJobs, hd, List.foldl_cons,
      List.foldl_nil]
    rw [promoteOne_ready t st (id0, r) jb hrt hj, hw, hd]
  refine ⟨?_, ?_, ?_, ?_⟩
  · intro t0 ht0
    simp only [getNextJob, hw, processDelayedJobs, hd, List.foldl_cons,
      List.foldl_nil]
    rw [promoteOne_notReady t0 st (id0, r) (by simp; omega)]
  · rw [hP]
  · rw [hP]
  · rw [hP]
    simp only [getNextJob]
    rw [aget_aset_self]
    simp [hid]

/-- Witness for C3 (amended) at a concrete one-job state. -/
theorem C3_promotion_needs_two_dequeues_witness :
    (∀ t0, t0 < 5 → getNextJob t0 stDelayed5 = (none, stDelayed5)) ∧
    (getNextJob 9 stDelayed5).1 = none ∧
    (getNextJob 9 stDelayed5).2.waiting = [0] ∧
    (getNextJob 11 (getNextJob 9 stDelayed5).2).1.map Job.id = some 0 :=
  C3_promotion_needs_two_dequeues stDelayed5 0 5 9 11 _ rfl rfl rfl rfl
    (by decide)

/-- C4 counterexample: two jobs enqueued with equal priority (the default 0)
and no delay, with no dequeue in between, are NOT returned in enqueue
order: both `addToQueue` branches `lpush` onto the head and `getNextJob`
`lpop`s the head, so the waiting list is a stack and the second job comes
back first. -/
theorem C4_insertion_order_counterexample :
    ∃ jA stA jB stB,
      add cfgDefault emptyQS 0 "a" "da" {} = .ok (jA, stA) ∧
      add cfgDefault stA 1 "b" "db" {} = .ok (jB, stB) ∧
      jA.id ≠ jB.id ∧
      (getNextJob 2 stB).1.map Job.id = some jB.id ∧
      ¬ (getNextJob 2 stB).1.map Job.id = some jA.id := by
  refine ⟨_, _, _, _, rfl, rfl, ?_, ?_, ?_⟩ <;> decide

/-- C4 (amended): for two jobs enqueued with equal priority and `delay = 0`
with no intervening dequeue, `dequeue` returns them in REVERSE enqueue
order: enqueue pushes with `lpush` and dequeue pops with `lpop`, so the
waiting list behaves as a stack; the second-enqueued job is popped first,
then the first. -/
theorem C4_equal_priority_reverse_order (cfg : QueueConfig) (st : QueueState)
    (now1 now2 t t2 : Nat) (name1 data1 name2 data2 : String)
    (o1 o2 : JobOptions) (j1 j2 : Job) (st1 st2 : QueueState)
    (h1 : add cfg st now1 name1 data1 o1 = .ok (j1, st1))
    (h2 : add cfg st1 now2 name2 data2 o2 = .ok (j2, st2))
    (hd1 : (mergeOpts cfg o1).delay = 0) (hd2 : (mergeOpts cfg o2).delay = 0)
    (_hp : (mergeOpts cfg o1).priority = (mergeOpts cfg o2).priority) :
    st2.waiting = j2.id :: j1.id :: st.waiting ∧
    j1.id ≠ j2.id ∧
    (getNextJob t st2).1.map Job.id = some j2.id ∧
    (getNextJob t2 (getNextJob t st2).2).1.map Job.id = some j1.id := by
  obtain ⟨-, hj1, -, hst1⟩ := add_ok_inv _ _ _ _ _ _ _ _ h1
  obtain ⟨-, hj2, -, hst2⟩ := add_ok_inv _ _ _ _ _ _ _ _ h2
  have hst1e := hst1 (by omega)
  have hst2e := hst2 (by omega)
  have hid1 : j1.id = st.nextId := by rw [hj1]
  have hid2 : j2.id = st1.nextId := by rw [hj2]
  have hn1 : st1.nextId = st.nextId + 1 := by rw [hst1e]
  have hne : j1.id ≠ j2.id := by omega
  have hwait2 : st2.waiting = j2.id :: j1.id :: st.waiting := by
    rw [hst2e, hid2, hid1, hst1e]
  have hjobs2 : aget j2.id st2.jobs = some j2 := by
    rw [hst2e, ← hid2]
    exact aget_aset_self _ _ _
  have hjobs1 : aget j1.id st2.jobs = some j1 := by
    rw [hst2e]
    have : aget j1.id (aset st1.nextId j2 st1.jobs) = aget j1.id st1.jobs := by
      apply aget_aset_ne
      omega
    rw [this, hst1e, ← hid1]
    exact aget_aset_self _ _ _
  refine ⟨hwait2, hne, ?_, ?_⟩
  · simp only [getNextJob, hwait2, hjobs2]
    rfl
  · have hfst : getNextJob t st2 =
        (some { j2 with status := .active, startedAt := some t },
          { st2 with waiting := j1.id :: st.waiting
                     jobs := aset j2.id
                       { j2 with status := .active, startedAt := some t } st2.jobs
                     active := sadd j2.id st2.active }) := by
      simp only [getNextJob, hwait2, hjobs2]
    rw [hfst]
    have hj1get : aget j1.id
        (aset j2.id { j2 with status := .active, startedAt := some t } st2.jobs) =
          some j1 := by
      rw [aget_aset_ne _ _ _ _ hne]
      exact hjobs1
    simp only [getNextJob, hj1get]
    rfl

/-- Witness for C4 (amended): two default-option enqueues into the empty
queue. -/
theorem C4_equal_priority_reverse_order_witness :
    ∃ j1 j2 st1 st2,
      add cfgDefault emptyQS 0 "a" "da" {} = .ok (j1, st1) ∧
      add cfgDefault st1 1 "b" "db" {} = .ok (j2, st2) ∧
      (st2.waiting = j2.id :: j1.id :: emptyQS.waiting ∧
        j1.id ≠ j2.id ∧
        (getNextJob 2 st2).1.map Job.id = some j2.id ∧
        (getNextJob 3 (getNextJob 2 st2).2).1.map Job.id = some j1.id) := by
  refine ⟨_, _, _, _, rfl, rfl, ?_⟩
  exact C4_equal_priority_reverse_order cfgDefault emptyQS 0 1 2 3 "a" "da"
    "b" "db" {} {} _ _ _ _ rfl rfl rfl rfl rfl

/-! ## Worker model (from the worker-pool source file)

One `PollOutcome` is what a single `processLoop` iteration observes:
`empty` when `getNextJob` returned null, `success` when a job was dequeued
and handled to completion (`processedJobs++`), `failure` when a job was
dequeued but processing failed — handler threw, timed out, or no handler
was registered — so `failJob` ran and `failedJobs++`.  The loop body
(lines 82-107) checks `processedJobs >= maxJobsPerWorker` *before* each
dequeue and then calls `stop()` (lines 171-174: `running = false`,
`status = "stopped"`) and breaks; the unconsumed outcomes are returned so
"performs no further dequeue" is visible as an untouched suffix. -/

/-- Result of one poll iteration of `Worker.processLoop`. -/
inductive PollOutcome where
  | empty
  | success
  | failure
deriving Repr, DecidableEq

/-- `WorkerStatus` from the worker source:
`"idle" | "busy" | "stopped" | "error"`. -/
inductive WorkerStatus where
  | idle
  | busy
  | stopped
  | error
deriving Repr, DecidableEq

/-- The mutable fields of a `Worker` relevant to the retirement logic. -/
structure WorkerState where
  processedJobs : Nat
  failedJobs : Nat
  running : Bool
  status : WorkerStatus
deriving Repr, DecidableEq

/-- A freshly started worker (`start()` sets `running = true`,
`status = "idle"`). -/
def startedWorker : WorkerState :=
  { processedJobs := 0, failedJobs := 0, running := true, status := .idle }

/-- `Worker.processLoop` (lines 82-107) driven by a finite schedule of poll
outcomes: while `running`, first check `processedJobs >= maxJobsPerWorker`
and self-retire via `stop()` when reached; otherwise consume the next poll
outcome (`success`: `completeJob` succeeded, `processedJobs++`; `failure`:
`failJob` ran, `failedJobs++`; `empty`: sleep and poll again).  Returns the
final worker state and the unconsumed schedule suffix. -/
def processLoop (maxJPW : Nat) : WorkerState → List PollOutcome →
    WorkerState × List PollOutcome
  | w, outs =>
    if w.running = false then (w, outs)
    else if maxJPW ≤ w.processedJobs then
      ({ w with running := false, status := .stopped }, outs)
    else
      match outs with
      | [] => (w, [])
      | .empty :: rest => processLoop maxJPW w rest
      | .success :: rest =>
          processLoop maxJPW
            { w with processedJobs := w.processedJobs + 1, status := .idle } rest
      | .failure :: rest =>
          processLoop maxJPW
            { w with failedJobs := w.failedJobs + 1, status := .idle } rest

/-- C8 counterexample: with `maxJobsPerWorker = 1`, a schedule of two
dequeued-but-failed jobs is consumed in full: the worker dequeues a second
job after having already dequeued one, never calls `stop()` (still
`running`), because retirement counts `processedJobs`, which is incremented
only on successful completion (line 136), not on dequeue. -/
theorem C8_retire_counts_completions_counterexample :
    (processLoop 1 startedWorker [.failure, .failure]).2 = [] ∧
    (processLoop 1 startedWorker [.failure, .failure]).1.running = true ∧
    (processLoop 1 startedWorker [.failure, .failure]).1.processedJobs = 0 ∧
    (processLoop 1 startedWorker [.failure, .failure]).1.failedJobs = 2 := by
  refine ⟨?_, ?_, ?_, ?_⟩ <;> decide

/-- C8 (amended): a worker self-retires after `maxJobsPerWorker`
successfully *completed* (not merely dequeued) jobs: `processedJobs` never
exceeds `maxJobsPerWorker`, and whenever the loop leaves part of the
schedule unconsumed (i.e. it stopped while work remained), it did so by
calling its own `stop()` with exactly `maxJobsPerWorker` completed jobs —
`running = false`, `status = stopped`, and no further dequeue happens. -/
theorem C8_worker_retires_after_completions (maxJPW : Nat)
    (outs : List PollOutcome) (w : WorkerState)
    (hr : w.running = true) (hp : w.processedJobs ≤ maxJPW) :
    (processLoop maxJPW w outs).1.processedJobs ≤ maxJPW ∧
    ((processLoop maxJPW w outs).2 ≠ [] →
      (processLoop maxJPW w outs).1.running = false ∧
      (processLoop maxJPW w outs).1.status = .stopped ∧
      (processLoop maxJPW w outs).1.processedJobs = maxJPW) := by
  induction outs generalizing w with
  | nil =>
      rw [processLoop.eq_def]
      dsimp only
      rw [hr]
      simp only [Bool.true_eq_false, if_false]
      by_cases hm : maxJPW ≤ w.processedJobs
      · rw [if_pos hm]
        exact ⟨hp, fun hc => absurd rfl hc⟩
      · rw [if_neg hm]
        exact ⟨hp, fun hc => absurd rfl hc⟩
  | cons o rest ih =>
      rw [processLoop.eq_def]
      dsimp only
      rw [hr]
      simp only [Bool.true_eq_false, if_false]
      by_cases hm : maxJPW ≤ w.processedJobs
      · rw [if_pos hm]
        exact ⟨hp, fun _ => ⟨rfl, rfl, le_antisymm hp hm⟩⟩
      · rw [if_neg hm]
        cases o with
        | empty => exact ih w hr hp
        | success => exact ih _ rfl (by simp; omega)
        | failure => exact ih _ rfl (by simpa using hp)

/-- Witness for C8 (amended): `maxJobsPerWorker = 2` with a schedule of
three successes; the third is left unconsumed and the worker stops. -/
theorem C8_worker_retires_after_completions_witness :
    (processLoop 2 startedWorker [.success, .success, .success]).1.processedJobs ≤ 2 ∧
    ((processLoop 2 startedWorker [.success, .success, .success]).2 ≠ [] →
      (processLoop 2 startedWorker [.success, .success, .success]).1.running = false ∧
      (processLoop 2 startedWorker [.success, .success, .success]).1.status = .stopped ∧
      (processLoop 2 startedWorker [.success, .success, .success]).1.processedJobs = 2) :=
  C8_worker_retires_after_completions 2 [.success, .success, .success]
    startedWorker rfl (by decide)

/-! ## Pending ids: machinery for the exactly-once-in-flight analysis -/

/-- The ids a dequeue can still return: waiting-list ids followed by the
keys of the `delayed` hash. -/
def pendingIds (st : QueueState) : List Nat :=
  st.waiting ++ st.delayed.map Prod.fst

/-- Every stored job record carries its own key as `id` (as `add` creates
them). -/
def IdsOk (l : List (Nat × Job)) : Prop :=
  ∀ p ∈ l, (p.2).id = p.1

/-- A successful `aget` on an `IdsOk` store returns a record whose `id`
equals the key. -/
theorem aget_id_eq (k : Nat) (jb : Job) (l : List (Nat × Job))
    (hids : IdsOk l) (h : aget k l = some jb) : jb.id = k := by
  unfold aget at h
  cases hf : l.find? (fun p => p.1 = k) with
  | none => rw [hf] at h; cases h
  | some p =>
      rw [hf] at h
      have hp1 : p.1 = k := by simpa using List.find?_some hf
      have hpm : p ∈ l := List.mem_of_find?_eq_some hf
      have : p.2 = jb := by simpa using h
      rw [← this, hids p hpm, hp1]

/-- `aset` with a record carrying its key preserves `IdsOk`. -/
theorem IdsOk_aset (k : Nat) (v : Job) (l : List (Nat × Job))
    (hids : IdsOk l) (hv : v.id = k) : IdsOk (aset k v l) := by
  unfold aset
  split
  · intro p hp
    rcases List.mem_map.mp hp with ⟨q, hq, hqe⟩
    by_cases hqk : q.1 = k
    · rw [if_pos hqk] at hqe
      rw [← hqe]
      exact hv
    · rw [if_neg hqk] at hqe
      rw [← hqe]
      exact hids q hq
  · intro p hp
    rcases List.mem_append.mp hp with hp | hp
    · exact hids p hp
    · rcases List.mem_singleton.mp hp with rfl
      exact hv

/-- Keys after `adel` are the original keys with `k` filtered out. -/
theorem keys_adel {β : Type} (k : Nat) (l : List (Nat × β)) :
    (adel k l).map Prod.fst = (l.map Prod.fst).filter (fun x => x ≠ k) := by
  unfold adel
  induction l with
  | nil => rfl
  | cons p t ih =>
      simp only [List.filter_cons, List.map_cons]
      by_cases hp : p.1 = k
      · rw [if_neg (by simpa using hp), if_neg (by simpa using hp)]
        exact ih
      · rw [if_pos (by simpa using hp), if_pos (by simpa using hp)]
        simp only [List.map_cons]
        rw [ih]

/-- A duplicate-free list is a permutation of any of its members consed
onto the list with that member filtered out. -/
theorem perm_cons_filter_ne (a : Nat) (l : List Nat) (hnd : l.Nodup)
    (ha : a ∈ l) : l.Perm (a :: l.filter (fun x => x ≠ a)) := by
  induction l with
  | nil => cases ha
  | cons b t ih =>
      have hb : b ∉ t := (List.nodup_cons.mp hnd).1
      have hndt : t.Nodup := (List.nodup_cons.mp hnd).2
      by_cases heq : a = b
      · subst heq
        have hfe : t.filter (fun x => x ≠ a) = t := by
          rw [List.filter_eq_self]
          intro x hx
          have hxa : x ≠ a := fun hc => hb (hc ▸ hx)
          simpa using hxa
        simp only [List.filter_cons]
        rw [if_neg (by simp), hfe]
      · have hat : a ∈ t := by
          rcases List.mem_cons.mp ha with h | h
          · exact absurd h heq
          · exact h
        simp only [List.filter_cons]
        rw [if_pos (by simpa using fun hc : b = a => heq hc.symm)]
        exact ((ih hndt hat).cons b).trans (List.Perm.swap a b _)

/-- `getNextJob` on an empty waiting list: promote, return nothing. -/
theorem getNextJob_empty (now : Nat) (st : QueueState) (hw : st.waiting = []) :
    getNextJob now st = (none, processDelayedJobs now st) := by
  simp only [getNextJob, hw]

/-- `getNextJob` popping an id with no record: drop it, return nothing. -/
theorem getNextJob_pop_miss (now j : Nat) (rest : List Nat) (st : QueueState)
    (hw : st.waiting = j :: rest) (hrec : aget j st.jobs = none) :
    getNextJob now st = (none, { st with waiting := rest }) := by
  simp only [getNextJob, hw, hrec]

/-- `getNextJob` popping an id with a record: activate and return it. -/
theorem getNextJob_pop_hit (now j : Nat) (rest : List Nat) (st : QueueState)
    (job : Job) (hw : st.waiting = j :: rest)
    (hrec : aget j st.jobs = some job) :
    getNextJob now st =
      (some { job with status := .active, startedAt := some now },
        { st with
            waiting := rest
            jobs := aset j { job with status := .active, startedAt := some now }
              st.jobs
            active := sadd j st.active }) := by
  simp only [getNextJob, hw, hrec]

/-- Folding `promoteOne` over a duplicate-free snapshot of the `delayed`
hash permutes the pending ids (each promotion moves one key from the hash
to the head of the waiting list) and preserves `IdsOk`. -/
theorem promoteFold_perm (now : Nat) (entries : List (Nat × Nat)) :
    ∀ s : QueueState, entries.Sublist s.delayed → (pendingIds s).Nodup →
      IdsOk s.jobs →
      (pendingIds (entries.foldl (promoteOne now) s)).Perm (pendingIds s) ∧
      IdsOk (entries.foldl (promoteOne now) s).jobs := by
  induction entries with
  | nil => exact fun s _ _ hids => ⟨List.Perm.refl _, hids⟩
  | cons p rest ih =>
      intro s hsub hnd hids
      simp only [List.foldl_cons]
      have hrest : rest.Sublist s.delayed := List.sublist_of_cons_sublist hsub
      by_cases hready : p.2 ≤ now
      · cases hrec : aget p.1 s.jobs with
        | none =>
            rw [promoteOne_noRecord now s p hrec]
            exact ih s hrest hnd hids
        | some job =>
            rw [promoteOne_ready now s p job hready hrec]
            have hkeysnd : (s.delayed.map Prod.fst).Nodup :=
              ((List.nodup_append.mp hnd).2).1
            have hpmem : p ∈ s.delayed := hsub.subset (List.mem_cons_self p rest)
            have hpk : p.1 ∈ s.delayed.map Prod.fst :=
              List.mem_map_of_mem Prod.fst hpmem
            have hperm1 :
                (pendingIds { s with
                    jobs := aset p.1 { job with status := .waiting } s.jobs
                    waiting := p.1 :: s.waiting
                    delayed := adel p.1 s.delayed }).Perm (pendingIds s) := by
              show ((p.1 :: s.waiting) ++
                  (adel p.1 s.delayed).map Prod.fst).Perm (pendingIds s)
              rw [keys_adel]
              have h1 : (p.1 :: (s.waiting ++
                  (s.delayed.map Prod.fst).filter (fun x => x ≠ p.1))).Perm
                    (s.waiting ++ p.1 ::
                      (s.delayed.map Prod.fst).filter (fun x => x ≠ p.1)) :=
                List.perm_middle.symm
              refine List.Perm.trans h1 ?_
              exact List.Perm.append_left s.waiting
                (perm_cons_filter_ne p.1 _ hkeysnd hpk).symm
            have hsub1 : rest.Sublist (adel p.1 s.delayed) := by
              have hkcons : (p.1 :: rest.map Prod.fst).Nodup :=
                List.Nodup.sublist (hsub.map Prod.fst) hkeysnd
              have hnotin : p.1 ∉ rest.map Prod.fst :=
                (List.nodup_cons.mp hkcons).1
              have hfe : rest.filter (fun q => q.1 ≠ p.1) = rest := by
                rw [List.filter_eq_self]
                intro q hq
                have hq1 : q.1 ≠ p.1 := fun hc =>
                  hnotin (hc ▸ List.mem_map_of_mem Prod.fst hq)
                simpa using hq1
              have hstep : List.Sublist (rest.filter (fun q => q.1 ≠ p.1))
                  (s.delayed.filter (fun q => q.1 ≠ p.1)) :=
                List.Sublist.filter _ hrest
              rw [hfe] at hstep
              exact hstep
            have hnd1 := (List.Perm.nodup_iff hperm1).mpr hnd
            have hids1 : IdsOk (aset p.1 { job with status := .waiting } s.jobs) :=
              IdsOk_aset _ _ _ hids (by simpa using aget_id_eq p.1 job s.jobs hids hrec)
            obtain ⟨hpermF, hidsF⟩ := ih _ hsub1 hnd1 hids1
            exact ⟨hpermF.trans hperm1, hidsF⟩
      · rw [promoteOne_notReady now s p hready]
        exact ih s hrest hnd hids

/-- A serialized trace of `dequeue()` calls at the given times, collecting
the ids of the jobs returned. -/
def dequeueRun : List Nat → QueueState → List Nat × QueueState
  | [], st => ([], st)
  | t :: ts, st =>
      match getNextJob t st with
      | (some j, st1) =>
          let r := dequeueRun ts st1
          (j.id :: r.1, r.2)
      | (none, st1) => dequeueRun ts st1

/-- The multiset of ids returned by a serialized dequeue trace is contained
in the multiset of initially pending ids. -/
theorem dequeueRun_le (ts : List Nat) :
    ∀ st : QueueState, (pendingIds st).Nodup → IdsOk st.jobs →
      ((dequeueRun ts st).1 : Multiset Nat) ≤ (pendingIds st : Multiset Nat) := by
  induction ts with
  | nil =>
      intro st _ _
      simp [dequeueRun]
  | cons t ts ih =>
      intro st hnd hids
      cases hw : st.waiting with
      | nil =>
          have hgn := getNextJob_empty t st hw
          rw [dequeueRun, hgn]
          have hfold := promoteFold_perm t st.delayed st (List.Sublist.refl _)
            hnd hids
          have hnd1 : (pendingIds (processDelayedJobs t st)).Nodup :=
            (List.Perm.nodup_iff hfold.1).mpr hnd
          have hle := ih (processDelayedJobs t st) hnd1 hfold.2
          calc ((dequeueRun ts (processDelayedJobs t st)).1 : Multiset Nat)
              ≤ (pendingIds (processDelayedJobs t st) : Multiset Nat) := hle
            _ = (pendingIds st : Multiset Nat) := by
                exact Multiset.coe_eq_coe.mpr hfold.1
      | cons j rest =>
          have hpend : pendingIds st = j :: (rest ++ st.delayed.map Prod.fst) := by
            simp [pendingIds, hw]
          cases hrec : aget j st.jobs with
          | none =>
              have hgn := getNextJob_pop_miss t j rest st hw hrec
              rw [dequeueRun, hgn]
              have hnd1 : (pendingIds { st with waiting := rest }).Nodup := by
                rw [hpend] at hnd
                exact (List.nodup_cons.mp hnd).2
              have hle := ih { st with waiting := rest } hnd1 hids
              rw [hpend]
              calc ((dequeueRun ts { st with waiting := rest }).1 : Multiset Nat)
                  ≤ (pendingIds { st with waiting := rest } : Multiset Nat) := hle
                _ ≤ (j :: (rest ++ st.delayed.map Prod.fst) : List Nat) := by
                    exact Multiset.le_cons_self _ _
          | some job =>
              have hgn := getNextJob_pop_hit t j rest st job hw hrec
              rw [dequeueRun, hgn]
              have hid : job.id = j := aget_id_eq j job st.jobs hids hrec
              have hnd1 : (pendingIds { st with
                  waiting := rest
                  jobs := aset j { job with status := .active
                                            startedAt := some t } st.jobs
                  active := sadd j st.active }).Nodup := by
                rw [hpend] at hnd
                exact (List.nodup_cons.mp hnd).2
              have hids1 : IdsOk (aset j
                  { job with status := .active, startedAt := some t } st.jobs) :=
                IdsOk_aset _ _ _ hids (by simpa using hid)
              have hle := ih _ hnd1 hids1
              rw [hpend]
              simp only []
              have hcons :
                  (({ job with status := .active, startedAt := some t }).id ::
                    (dequeueRun ts { st with
                      waiting := rest
                      jobs := aset j { job with status := .active
                                                startedAt := some t } st.jobs
                      active := sadd j st.active }).1 : Multiset Nat) =
                  ({ job with status := .active, startedAt := some t }).id ::ₘ
                    ((dequeueRun ts { st with
                      waiting := rest
                      jobs := aset j { job with status := .active
                                                startedAt := some t } st.jobs
                      active := sadd j st.active }).1 : Multiset Nat) := by
                rfl
              rw [hcons]
              dsimp only
              nth_rewrite 1 [hid]
              have : (j :: (rest ++ st.delayed.map Prod.fst) : Multiset Nat) =
                  j ::ₘ ((rest ++ st.delayed.map Prod.fst : List Nat) :
                    Multiset Nat) := rfl
              rw [this]
              exact Multiset.cons_le_cons j hle

/-- C1 (amended): provided each `dequeue()` call executes atomically — the
only guarantee the backing store actually gives is that the `lpop` itself
is atomic — a serialized trace of dequeue calls starting from a state whose
pending ids (waiting list plus delayed keys) are duplicate-free never
returns the same job id twice.  The unserialized claim is refuted by
`C1_concurrent_promotion_duplicate_counterexample`. -/
theorem C1_serialized_dequeues_never_repeat (ts : List Nat) (st : QueueState)
    (hnd : (pendingIds st).Nodup) (hids : IdsOk st.jobs) :
    (dequeueRun ts st).1.Nodup := by
  have hle := dequeueRun_le ts st hnd hids
  have hmnd : ((pendingIds st : Multiset Nat)).Nodup :=
    Multiset.coe_nodup.mpr hnd
  exact Multiset.coe_nodup.mp (Multiset.nodup_of_le hle hmnd)

/-- A queue with one waiting job (id 1) and one delayed job (id 0, ready at
time 5), used to witness the serialized-dequeue theorem. -/
def stMixed : QueueState :=
  { emptyQS with
      waiting := [1]
      delayed := [(0, 5)]
      jobs := [(0, { id := 0, name := "n", data := "d", status := .delayed
                     priority := 0, attempts := 0, maxAttempts := 3
                     createdAt := 0 }),
               (1, { id := 1, name := "m", data := "e", status := .waiting
                     priority := 0, attempts := 0, maxAttempts := 3
                     createdAt := 0 })]
      nextId := 2 }

/-- Witness for C1 (amended): three serialized dequeues at times 10, 11, 12
return distinct ids. -/
theorem C1_serialized_dequeues_never_repeat_witness :
    (dequeueRun [10, 11, 12] stMixed).1.Nodup :=
  C1_serialized_dequeues_never_repeat [10, 11, 12] stMixed (by decide)
    (by unfold IdsOk; decide)

/-- C1 counterexample: the promotion path of `dequeue()` is *not* atomic, and
an interleaving of two concurrent `dequeue()` calls makes later dequeues
return the same job id twice.  Schedule, with workers W1 and W2 and one
delayed job (id 0) whose ready-time 5 has elapsed at `now = 10`:
W1 `lpop` → null; W2 `lpop` → null; W1 `hgetall` → snapshot containing
(0, 5); W2 `hgetall` → the same snapshot (nothing was deleted yet); W1 runs
the promotion body for (0, 5) — `promoteOne` — pushing id 0; W2 runs its own
promotion body for (0, 5) from its snapshot — `promoteOne` again, whose
record lookup still succeeds and which pushes id 0 a second time (its `hdel`
is a no-op).  Each step is a single atomic store command issued in program
order by its worker, so this is a real interleaving of the source's `await`
points (lines 117-170).  The waiting list now holds id 0 twice, and the next
two `dequeue()` calls both pop it: the same job id is returned twice and
both callers hold job 0 as `Active`. -/
theorem C1_concurrent_promotion_duplicate_counterexample :
    (promoteOne 10 (promoteOne 10 stDelayed5 (0, 5)) (0, 5)).waiting = [0, 0] ∧
    (getNextJob 11
        (promoteOne 10 (promoteOne 10 stDelayed5 (0, 5)) (0, 5))).1.map Job.id =
      some 0 ∧
    (getNextJob 12
        (getNextJob 11
          (promoteOne 10 (promoteOne 10 stDelayed5 (0, 5)) (0, 5))).2).1.map
        Job.id = some 0 := by
  refine ⟨?_, ?_, ?_⟩ <;> decide

/-! ## Further store lemmas -/

/-- A successful `aget` exhibits a list member with the queried key. -/
theorem aget_mem {β : Type} (k : Nat) (v : β) (l : List (Nat × β))
    (h : aget k l = some v) : (k, v) ∈ l := by
  unfold aget at h
  cases hf : l.find? (fun p => p.1 = k) with
  | none => rw [hf] at h; cases h
  | some p =>
      rw [hf] at h
      have hp1 : p.1 = k := by simpa using List.find?_some hf
      have hpm : p ∈ l := List.mem_of_find?_eq_some hf
      have hp2 : p.2 = v := by simpa using h
      have : p = (k, v) := by
        rw [← hp1, ← hp2]
      rw [← this]
      exact hpm

/-- Elements after `aset` are old elements or the new pair. -/
theorem mem_aset {β : Type} (k : Nat) (v : β) (l : List (Nat × β))
    (p : Nat × β) (h : p ∈ aset k v l) : p ∈ l ∨ p = (k, v) := by
  unfold aset at h
  split at h
  · rcases List.mem_map.mp h with ⟨q, hq, hqe⟩
    by_cases hqk : q.1 = k
    · rw [if_pos hqk] at hqe
      exact Or.inr hqe.symm
    · rw [if_neg hqk] at hqe
      exact Or.inl (hqe ▸ hq)
  · rcases List.mem_append.mp h with h | h
    · exact Or.inl h
    · exact Or.inr (List.mem_singleton.mp h)

/-- A successful `aget` means the key-presence test succeeds. -/
theorem aget_some_any {β : Type} (k : Nat) (v : β) (l : List (Nat × β))
    (h : aget k l = some v) : l.any (fun p => p.1 = k) = true := by
  rcases aget_mem k v l h with hm
  simp only [List.any_eq_true]
  exact ⟨(k, v), hm, by simp⟩

/-- The in-place update underlying `aset` preserves every key. -/
theorem keys_update_map {β : Type} (k : Nat) (v : β) (l : List (Nat × β)) :
    (l.map (fun p => if p.1 = k then (k, v) else p)).map Prod.fst =
      l.map Prod.fst := by
  induction l with
  | nil => rfl
  | cons p t ih =>
      simp only [List.map_cons, ih]
      by_cases hp : p.1 = k
      · rw [if_pos hp, hp]
      · rw [if_neg hp]

/-- `aset` on a present key leaves the key list unchanged. -/
theorem keys_aset_present {β : Type} (k : Nat) (v : β) (l : List (Nat × β))
    (h : l.any (fun p => p.1 = k) = true) :
    (aset k v l).map Prod.fst = l.map Prod.fst := by
  unfold aset
  rw [if_pos h]
  exact keys_update_map k v l

/-- `aset` on an absent key appends it. -/
theorem keys_aset_absent {β : Type} (k : Nat) (v : β) (l : List (Nat × β))
    (h : ¬ l.any (fun p => p.1 = k) = true) :
    (aset k v l).map Prod.fst = l.map Prod.fst ++ [k] := by
  unfold aset
  rw [if_neg h]
  simp

/-- `aset` preserves duplicate-freeness of the key list. -/
theorem keys_aset_nodup {β : Type} (k : Nat) (v : β) (l : List (Nat × β))
    (h : (l.map Prod.fst).Nodup) : ((aset k v l).map Prod.fst).Nodup := by
  by_cases ha : l.any (fun p => p.1 = k) = true
  · rw [keys_aset_present k v l ha]
    exact h
  · rw [keys_aset_absent k v l ha]
    have hnk : k ∉ l.map Prod.fst := by
      intro hc
      rcases List.mem_map.mp hc with ⟨q, hq, hqe⟩
      exact ha (by
        simp only [List.any_eq_true]
        exact ⟨q, hq, by simpa using hqe⟩)
    simp [List.nodup_append, h, hnk]

/-- With duplicate-free keys, every entry bearing the key of a successful
`aget` carries the value that `aget` returned. -/
theorem aget_unique_value {β : Type} (k : Nat) (v : β) :
    ∀ l : List (Nat × β), (l.map Prod.fst).Nodup → aget k l = some v →
      ∀ u, (k, u) ∈ l → u = v := by
  intro l
  induction l with
  | nil => intro _ _ u hu; cases hu
  | cons p t ih =>
      intro hnd h u hu
      have hndt : (t.map Prod.fst).Nodup := by
        simp only [List.map_cons, List.nodup_cons] at hnd
        exact hnd.2
      have hp1 : p.1 ∉ t.map Prod.fst := by
        simp only [List.map_cons, List.nodup_cons] at hnd
        exact hnd.1
      rcases List.mem_cons.mp hu with heq | hut
      · unfold aget at h
        rw [← heq] at h
        rw [List.find?_cons_of_pos _ (by simp)] at h
        simpa using h
      · have hkp : p.1 ≠ k := fun hc =>
          hp1 (hc ▸ List.mem_map_of_mem Prod.fst hut)
        refine ih hndt ?_ u hut
        unfold aget at h ⊢
        rw [List.find?_cons_of_neg _ (by simpa using hkp)] at h
        exact h

/-! ## Transition system: the queue operations as observed by workers

`Step cfg t st st1` is one serialized operation at time `t` (each
`getNextJob` here is taken as atomic; the finer-grained interleavings are
treated in the C1 analysis).  `completeJob`/`failJob` steps are guarded by
membership in the active set, matching their only caller: a `Worker` invokes
them exactly for the job it has just dequeued (worker source lines 135, 143).
`Reach` are the states reachable from the empty keyspace. -/

inductive Step (cfg : QueueConfig) (now : Nat) : QueueState → QueueState → Prop
  | enqueue (name data : String) (o : JobOptions) (j : Job)
      (st st1 : QueueState) :
      add cfg st now name data o = .ok (j, st1) → Step cfg now st st1
  | dequeue (st : QueueState) : Step cfg now st (getNextJob now st).2
  | complete (jobId : Nat) (res : String) (st st1 : QueueState) :
      jobId ∈ st.active → completeJob now jobId res st = .ok st1 →
      Step cfg now st st1
  | fail (jobId : Nat) (e : String) (st st1 : QueueState) :
      jobId ∈ st.active → failJob cfg now jobId e st = .ok st1 →
      Step cfg now st st1

/-- States reachable from the empty keyspace by serialized operations. -/
inductive Reach (cfg : QueueConfig) : QueueState → Prop
  | init : Reach cfg emptyQS
  | step (t : Nat) {st st1 : QueueState} :
      Reach cfg st → Step cfg t st st1 → Reach cfg st1

/-- `Step` with enqueues restricted to a merged `attempts` of at least 1
(the queue default is 3; only an explicit `attempts: 0` option escapes
this). -/
inductive GStep (cfg : QueueConfig) (now : Nat) : QueueState → QueueState → Prop
  | enqueue (name data : String) (o : JobOptions) (j : Job)
      (st st1 : QueueState) :
      1 ≤ (mergeOpts cfg o).attempts →
      add cfg st now name data o = .ok (j, st1) → GStep cfg now st st1
  | dequeue (st : QueueState) : GStep cfg now st (getNextJob now st).2
  | complete (jobId : Nat) (res : String) (st st1 : QueueState) :
      jobId ∈ st.active → completeJob now jobId res st = .ok st1 →
      GStep cfg now st st1
  | fail (jobId : Nat) (e : String) (st st1 : QueueState) :
      jobId ∈ st.active → failJob cfg now jobId e st = .ok st1 →
      GStep cfg now st st1

/-- States reachable when every enqueue grants at least one attempt. -/
inductive GReach (cfg : QueueConfig) : QueueState → Prop
  | init : GReach cfg emptyQS
  | step (t : Nat) {st st1 : QueueState} :
      GReach cfg st → GStep cfg t st st1 → GReach cfg st1

/-- Every guarded step is a step. -/
theorem GStep.toStep {cfg : QueueConfig} {now : Nat} {st st1 : QueueState}
    (h : GStep cfg now st st1) : Step cfg now st st1 := by
  cases h with
  | enqueue name data o j st st1 _ hadd => exact Step.enqueue name data o j st st1 hadd
  | dequeue st => exact Step.dequeue st
  | complete jobId res st st1 hm hok => exact Step.complete jobId res st st1 hm hok
  | fail jobId e st st1 hm hok => exact Step.fail jobId e st st1 hm hok

/-! ## The base well-formedness invariant -/

/-- All ids a job can be tracked under while non-terminal: waiting list,
delayed keys, active set. -/
def allIds (st : QueueState) : List Nat :=
  st.waiting ++ st.delayed.map Prod.fst ++ st.active

/-- Well-formedness maintained by every serialized operation: records carry
their keys as ids, every tracked id and record key is below the id counter,
and no id appears twice across waiting, delayed, active. -/
structure Base (st : QueueState) : Prop where
  ids : IdsOk st.jobs
  jobsBound : ∀ p ∈ st.jobs, p.1 < st.nextId
  pendBound : ∀ x ∈ allIds st, x < st.nextId
  distinct : (allIds st).Nodup

/-- The promotion fold never touches the active set, the id counter, or the
set of record keys. -/
theorem promoteFold_frame (now : Nat) (entries : List (Nat × Nat)) :
    ∀ s : QueueState,
      (entries.foldl (promoteOne now) s).active = s.active ∧
      (entries.foldl (promoteOne now) s).nextId = s.nextId ∧
      ((entries.foldl (promoteOne now) s).jobs).map Prod.fst =
        s.jobs.map Prod.fst := by
  induction entries with
  | nil => exact fun s => ⟨rfl, rfl, rfl⟩
  | cons p rest ih =>
      intro s
      simp only [List.foldl_cons]
      have hone : (promoteOne now s p).active = s.active ∧
          (promoteOne now s p).nextId = s.nextId ∧
          ((promoteOne now s p).jobs).map Prod.fst = s.jobs.map Prod.fst := by
        by_cases hready : p.2 ≤ now
        · cases hrec : aget p.1 s.jobs with
          | none =>
              rw [promoteOne_noRecord now s p hrec]
              exact ⟨rfl, rfl, rfl⟩
          | some job =>
              rw [promoteOne_ready now s p job hready hrec]
              exact ⟨rfl, rfl,
                keys_aset_present _ _ _ (aget_some_any _ _ _ hrec)⟩
        · rw [promoteOne_notReady now s p hready]
          exact ⟨rfl, rfl, rfl⟩
      obtain ⟨h1, h2, h3⟩ := ih (promoteOne now s p)
      exact ⟨h1.trans hone.1, h2.trans hone.2.1, h3.trans hone.2.2⟩

/-- `add` preserves well-formedness. -/
theorem base_add (cfg : QueueConfig) (st : QueueState) (now : Nat)
    (name data : String) (o : JobOptions) (j : Job) (st1 : QueueState)
    (hB : Base st) (h : add cfg st now name data o = .ok (j, st1)) :
    Base st1 := by
  obtain ⟨-, hj, hdel, hnodel⟩ := add_ok_inv _ _ _ _ _ _ _ _ h
  have hjid : j.id = st.nextId := by rw [hj]
  have hnall : st.nextId ∉ allIds st := fun hc =>
    lt_irrefl _ (hB.pendBound _ hc)
  have hnd : st.nextId ∉ st.delayed.map Prod.fst := fun hc =>
    hnall (by simp [allIds, hc])
  have hids1 : IdsOk (aset st.nextId j st.jobs) :=
    IdsOk_aset _ _ _ hB.ids hjid
  have hjb1 : ∀ p ∈ aset st.nextId j st.jobs, p.1 < st.nextId + 1 := by
    intro p hp
    rcases mem_aset _ _ _ _ hp with hp | hp
    · exact Nat.lt_succ_of_lt (hB.jobsBound p hp)
    · rw [hp]
      exact Nat.lt_succ_self _
  have hconsnd : (st.nextId :: allIds st).Nodup :=
    List.nodup_cons.mpr ⟨hnall, hB.distinct⟩
  by_cases hd : (mergeOpts cfg o).delay > 0
  · rw [hdel hd]
    have hany : ¬ st.delayed.any (fun p => p.1 = st.nextId) = true := by
      intro hc
      simp only [List.any_eq_true, decide_eq_true_eq] at hc
      obtain ⟨q, hq, hqe⟩ := hc
      exact hnd (hqe ▸ List.mem_map_of_mem Prod.fst hq)
    have hkeys : (aset st.nextId (now + (mergeOpts cfg o).delay)
        st.delayed).map Prod.fst = st.delayed.map Prod.fst ++ [st.nextId] :=
      keys_aset_absent _ _ _ hany
    have hperm : (st.waiting ++
        (st.delayed.map Prod.fst ++ [st.nextId]) ++ st.active).Perm
          (st.nextId :: allIds st) := by
      have p1 : ((st.delayed.map Prod.fst ++ [st.nextId]) ++ st.active).Perm
          ((st.nextId :: st.delayed.map Prod.fst) ++ st.active) :=
        List.Perm.append_right st.active
          (List.perm_append_singleton st.nextId (st.delayed.map Prod.fst))
      have p2 : (st.waiting ++
          ((st.delayed.map Prod.fst ++ [st.nextId]) ++ st.active)).Perm
            (st.waiting ++
              ((st.nextId :: st.delayed.map Prod.fst) ++ st.active)) :=
        List.Perm.append_left st.waiting p1
      have p3 : (st.waiting ++ (st.nextId ::
          (st.delayed.map Prod.fst ++ st.active))).Perm
            (st.nextId ::
              (st.waiting ++ (st.delayed.map Prod.fst ++ st.active))) :=
        List.perm_middle
      rw [List.append_assoc]
      refine p2.trans (p3.trans ?_)
      simp only [allIds, List.append_assoc]
      exact List.Perm.refl _
    refine ⟨hids1, hjb1, ?_, ?_⟩
    · intro x hx
      simp only [allIds] at hx
      rw [hkeys] at hx
      show x < st.nextId + 1
      rcases List.mem_cons.mp (hperm.mem_iff.mp hx) with rfl | hx1
      · exact Nat.lt_succ_self _
      · exact Nat.lt_succ_of_lt (hB.pendBound x hx1)
    · unfold allIds
      dsimp only
      rw [hkeys]
      exact (List.Perm.nodup_iff hperm).mpr hconsnd
  · rw [hnodel hd]
    refine ⟨hids1, hjb1, ?_, ?_⟩
    · intro x hx
      simp only [allIds] at hx
      show x < st.nextId + 1
      have hx2 : x ∈ st.nextId :: allIds st := by
        simp only [allIds, List.append_assoc]
        simpa [List.append_assoc] using hx
      rcases List.mem_cons.mp hx2 with rfl | hx1
      · exact Nat.lt_succ_self _
      · exact Nat.lt_succ_of_lt (hB.pendBound x hx1)
    · show ((st.nextId :: st.waiting) ++ st.delayed.map Prod.fst ++
        st.active).Nodup
      have he : (st.nextId :: st.waiting) ++ st.delayed.map Prod.fst ++
          st.active = st.nextId :: allIds st := by
        simp [allIds]
      rw [he]
      exact hconsnd


/-- Inversion of a successful `completeJob`. -/
theorem completeJob_ok_inv (now jobId : Nat) (res : String)
    (st st1 : QueueState) (h : completeJob now jobId res st = .ok st1) :
    ∃ job, aget jobId st.jobs = some job ∧
      st1 = { st with
        jobs := aset jobId { job with status := .completed
                                      completedAt := some now
                                      result := some res } st.jobs
        active := srem jobId st.active
        completed := sadd jobId st.completed } := by
  cases hrec : aget jobId st.jobs with
  | none =>
      simp only [completeJob, hrec] at h
      exact absurd h (by simp)
  | some job =>
      simp only [completeJob, hrec] at h
      refine ⟨job, rfl, ?_⟩
      injection h with h
      exact h.symm

/-- Inversion of a successful `failJob`. -/
theorem failJob_ok_inv (cfg : QueueConfig) (now jobId : Nat) (e : String)
    (st st1 : QueueState) (h : failJob cfg now jobId e st = .ok st1) :
    ∃ job, aget jobId st.jobs = some job ∧
      ((job.attempts + 1 < job.maxAttempts ∧
        st1 = { st with
          jobs := aset jobId { job with attempts := job.attempts + 1
                                        error := some e
                                        status := .waiting } st.jobs
          active := srem jobId st.active
          delayed := aset jobId
            (now + calculateRetryDelay cfg (job.attempts + 1)) st.delayed }) ∨
       (¬ job.attempts + 1 < job.maxAttempts ∧
        st1 = { st with
          jobs := aset jobId { job with attempts := job.attempts + 1
                                        error := some e
                                        status := .failed
                                        failedAt := some now } st.jobs
          active := srem jobId st.active
          failed := sadd jobId st.failed })) := by
  cases hrec : aget jobId st.jobs with
  | none =>
      simp only [failJob, hrec] at h
      exact absurd h (by simp)
  | some job =>
      simp only [failJob, hrec] at h
      refine ⟨job, rfl, ?_⟩
      split at h
      · next hc =>
          left
          refine ⟨by simpa using hc, ?_⟩
          injection h with h
          exact h.symm
      · next hc =>
          right
          refine ⟨by simpa using hc, ?_⟩
          injection h with h
          exact h.symm

/-- Key-stable stores keep record keys below the same bound. -/
theorem jobsBound_of_keys (l l2 : List (Nat × Job)) (n : Nat)
    (hkeys : l2.map Prod.fst = l.map Prod.fst)
    (hb : ∀ p ∈ l, p.1 < n) : ∀ p ∈ l2, p.1 < n := by
  intro p hp
  have hm : p.1 ∈ l2.map Prod.fst := List.mem_map_of_mem Prod.fst hp
  rw [hkeys] at hm
  rcases List.mem_map.mp hm with ⟨q, hq, hqe⟩
  rw [← hqe]
  exact hb q hq

/-- `getNextJob` preserves well-formedness. -/
theorem base_dequeue (now : Nat) (st : QueueState) (hB : Base st) :
    Base (getNextJob now st).2 := by
  cases hw : st.waiting with
  | nil =>
      rw [getNextJob_empty now st hw]
      show Base (st.delayed.foldl (promoteOne now) st)
      have hpendnd : (pendingIds st).Nodup := by
        have hd := hB.distinct
        unfold allIds at hd
        exact (List.nodup_append.mp hd).1
      obtain ⟨hperm, hids⟩ := promoteFold_perm now st.delayed st
        (List.Sublist.refl _) hpendnd hB.ids
      obtain ⟨hact, hnext, hkeys⟩ := promoteFold_frame now st.delayed st
      have hallperm : (allIds (st.delayed.foldl (promoteOne now) st)).Perm
          (allIds st) := by
        show ((pendingIds (st.delayed.foldl (promoteOne now) st)) ++
          (st.delayed.foldl (promoteOne now) st).active).Perm
            (pendingIds st ++ st.active)
        rw [hact]
        exact List.Perm.append_right st.active hperm
      refine ⟨hids, ?_, ?_, ?_⟩
      · rw [hnext]
        exact jobsBound_of_keys st.jobs _ st.nextId hkeys hB.jobsBound
      · intro x hx
        rw [hnext]
        exact hB.pendBound x (hallperm.mem_iff.mp hx)
      · exact (List.Perm.nodup_iff hallperm).mpr hB.distinct
  | cons jid rest =>
      cases hrec : aget jid st.jobs with
      | none =>
          rw [getNextJob_pop_miss now jid rest st hw hrec]
          have hsub : (rest ++ st.delayed.map Prod.fst ++ st.active).Sublist
              ((jid :: rest) ++ st.delayed.map Prod.fst ++ st.active) :=
            List.Sublist.append
              (List.Sublist.append (List.sublist_cons_self jid rest)
                (List.Sublist.refl _)) (List.Sublist.refl _)
          have hdst := hB.distinct
          have hpbd := hB.pendBound
          unfold allIds at hdst hpbd
          rw [hw] at hdst hpbd
          refine ⟨hB.ids, hB.jobsBound, ?_, ?_⟩
          · intro x hx
            unfold allIds at hx
            exact hpbd x (hsub.subset hx)
          · unfold allIds
            exact List.Nodup.sublist hsub hdst
      | some job =>
          rw [getNextJob_pop_hit now jid rest st job hw hrec]
          have hdst := hB.distinct
          unfold allIds at hdst
          rw [hw] at hdst
          have hna : jid ∉ st.active := by
            have hdisj := (List.nodup_append.mp hdst).2.2
            exact hdisj (by simp)
          have hsadd : sadd jid st.active = st.active ++ [jid] := by
            unfold sadd
            rw [if_neg hna]
          have hperm : ((rest ++ st.delayed.map Prod.fst) ++
              (st.active ++ [jid])).Perm
                ((jid :: rest) ++ st.delayed.map Prod.fst ++ st.active) := by
            have p1 : ((rest ++ st.delayed.map Prod.fst) ++
                (st.active ++ [jid])) =
                  (((rest ++ st.delayed.map Prod.fst) ++ st.active) ++ [jid]) := by
              simp [List.append_assoc]
            rw [p1]
            exact List.perm_append_singleton jid _
          refine ⟨?_, ?_, ?_, ?_⟩
          · exact IdsOk_aset _ _ _ hB.ids
              (by simpa using aget_id_eq jid job st.jobs hB.ids hrec)
          · show ∀ p ∈ aset jid _ st.jobs, p.1 < st.nextId
            exact jobsBound_of_keys st.jobs _ st.nextId
              (keys_aset_present _ _ _ (aget_some_any _ _ _ hrec)) hB.jobsBound
          · intro x hx
            unfold allIds at hx
            dsimp only at hx
            rw [hsadd] at hx
            apply hB.pendBound
            unfold allIds
            rw [hw]
            exact hperm.mem_iff.mp (by simpa [List.append_assoc] using hx)
          · unfold allIds
            dsimp only
            rw [hsadd]
            refine (List.Perm.nodup_iff ?_).mpr hdst
            simpa [List.append_assoc] using hperm

/-- `completeJob` on an active job preserves well-formedness. -/
theorem base_complete (now jobId : Nat) (res : String) (st st1 : QueueState)
    (hB : Base st) (h : completeJob now jobId res st = .ok st1) : Base st1 := by
  obtain ⟨job, hrec, hst1⟩ := completeJob_ok_inv now jobId res st st1 h
  rw [hst1]
  have hsub : (st.waiting ++ st.delayed.map Prod.fst ++
      srem jobId st.active).Sublist
        (st.waiting ++ st.delayed.map Prod.fst ++ st.active) :=
    List.Sublist.append (List.Sublist.refl _) (List.filter_sublist _)
  refine ⟨?_, ?_, ?_, ?_⟩
  · exact IdsOk_aset _ _ _ hB.ids
      (by simpa using aget_id_eq jobId job st.jobs hB.ids hrec)
  · show ∀ p ∈ aset jobId _ st.jobs, p.1 < st.nextId
    exact jobsBound_of_keys st.jobs _ st.nextId
      (keys_aset_present _ _ _ (aget_some_any _ _ _ hrec)) hB.jobsBound
  · intro x hx
    unfold allIds at hx
    dsimp only at hx
    apply hB.pendBound
    unfold allIds
    exact hsub.subset hx
  · unfold allIds
    dsimp only
    exact List.Nodup.sublist hsub hB.distinct

/-- `failJob` on an active job preserves well-formedness. -/
theorem base_fail (cfg : QueueConfig) (now jobId : Nat) (e : String)
    (st st1 : QueueState) (hB : Base st) (hm : jobId ∈ st.active)
    (h : failJob cfg now jobId e st = .ok st1) : Base st1 := by
  obtain ⟨job, hrec, hcase⟩ := failJob_ok_inv cfg now jobId e st st1 h
  have hids1 : IdsOk (aset jobId
      { job with attempts := job.attempts + 1, error := some e
                 status := .waiting } st.jobs) :=
    IdsOk_aset _ _ _ hB.ids
      (by simpa using aget_id_eq jobId job st.jobs hB.ids hrec)
  have hids2 : IdsOk (aset jobId
      { job with attempts := job.attempts + 1, error := some e
                 status := .failed, failedAt := some now } st.jobs) :=
    IdsOk_aset _ _ _ hB.ids
      (by simpa using aget_id_eq jobId job st.jobs hB.ids hrec)
  have hjb : ∀ (v : Job), ∀ p ∈ aset jobId v st.jobs, p.1 < st.nextId :=
    fun v => jobsBound_of_keys st.jobs _ st.nextId
      (keys_aset_present _ _ _ (aget_some_any _ _ _ hrec)) hB.jobsBound
  have hdisj := (List.nodup_append.mp hB.distinct).2.2
  have hndk : jobId ∉ st.waiting ++ st.delayed.map Prod.fst := by
    intro hc
    exact hdisj hc hm
  have hactnd : st.active.Nodup := (List.nodup_append.mp hB.distinct).2.1
  rcases hcase with ⟨-, hst1⟩ | ⟨-, hst1⟩
  · rw [hst1]
    have hanyd : ¬ st.delayed.any (fun p => p.1 = jobId) = true := by
      intro hc
      simp only [List.any_eq_true, decide_eq_true_eq] at hc
      obtain ⟨q, hq, hqe⟩ := hc
      exact hndk (by
        refine List.mem_append.mpr (Or.inr ?_)
        exact hqe ▸ List.mem_map_of_mem Prod.fst hq)
    have hkeysd : (aset jobId
        (now + calculateRetryDelay cfg (job.attempts + 1))
          st.delayed).map Prod.fst = st.delayed.map Prod.fst ++ [jobId] :=
      keys_aset_absent _ _ _ hanyd
    have hperm : ((st.waiting ++ (st.delayed.map Prod.fst ++ [jobId])) ++
        srem jobId st.active).Perm
          ((st.waiting ++ st.delayed.map Prod.fst) ++ st.active) := by
      have p1 : st.waiting ++ (st.delayed.map Prod.fst ++ [jobId]) =
          (st.waiting ++ st.delayed.map Prod.fst) ++ [jobId] := by
        rw [List.append_assoc]
      rw [p1]
      have p2 : (((st.waiting ++ st.delayed.map Prod.fst) ++ [jobId]) ++
          srem jobId st.active).Perm
            ((jobId :: (st.waiting ++ st.delayed.map Prod.fst)) ++
              srem jobId st.active) :=
        List.Perm.append_right _ (List.perm_append_singleton jobId _)
      have p3 : st.active.Perm (jobId :: srem jobId st.active) :=
        perm_cons_filter_ne jobId st.active hactnd hm
      have p4 : ((st.waiting ++ st.delayed.map Prod.fst) ++ st.active).Perm
          ((st.waiting ++ st.delayed.map Prod.fst) ++
            (jobId :: srem jobId st.active)) :=
        List.Perm.append_left _ p3
      exact p2.trans (List.perm_middle.symm.trans p4.symm)
    refine ⟨hids1, hjb _, ?_, ?_⟩
    · intro x hx
      unfold allIds at hx
      dsimp only at hx
      rw [hkeysd] at hx
      apply hB.pendBound
      exact hperm.mem_iff.mp hx
    · unfold allIds
      dsimp only
      rw [hkeysd]
      exact (List.Perm.nodup_iff hperm).mpr hB.distinct
  · rw [hst1]
    have hsub : (st.waiting ++ st.delayed.map Prod.fst ++
        srem jobId st.active).Sublist
          (st.waiting ++ st.delayed.map Prod.fst ++ st.active) :=
      List.Sublist.append (List.Sublist.refl _) (List.filter_sublist _)
    refine ⟨hids2, hjb _, ?_, ?_⟩
    · intro x hx
      unfold allIds at hx
      dsimp only at hx
      apply hB.pendBound
      exact hsub.subset hx
    · unfold allIds
      dsimp only
      exact List.Nodup.sublist hsub hB.distinct

/-- Every serialized operation preserves well-formedness. -/
theorem base_step (cfg : QueueConfig) (t : Nat) (st st1 : QueueState)
    (hB : Base st) (h : Step cfg t st st1) : Base st1 := by
  cases h with
  | enqueue name data o j st st1 hadd =>
      exact base_add cfg st t name data o j st1 hB hadd
  | dequeue st => exact base_dequeue t st hB
  | complete jobId res st st1 hm hok =>
      exact base_complete t jobId res st st1 hB hok
  | fail jobId e st st1 hm hok =>
      exact base_fail cfg t jobId e st st1 hB hm hok

/-- Every reachable state is well-formed. -/
theorem reach_base (cfg : QueueConfig) (st : QueueState)
    (h : Reach cfg st) : Base st := by
  induction h with
  | init =>
      refine ⟨?_, ?_, ?_, ?_⟩
      · intro p hp
        cases hp
      · intro p hp
        cases hp
      · intro x hx
        cases hx
      · exact List.Pairwise.nil
  | step t hr hs ih => exact base_step _ _ _ _ ih hs

/-! ## C7: a delayed job is untouchable before its ready-time -/

/-- The job with id `idj` sits only in the delayed partition, with
ready-time `r`. -/
def P7 (idj r : Nat) (st : QueueState) : Prop :=
  aget idj st.delayed = some r ∧ idj ∉ st.waiting ∧ idj ∉ st.active

/-- The promotion fold at a time strictly before `r` neither promotes the
job `idj` nor touches its hash entry. -/
theorem promoteFold_P7 (now idj r : Nat) (hlt : now < r)
    (entries : List (Nat × Nat)) :
    ∀ s : QueueState, (∀ u, (idj, u) ∈ entries → u = r) →
      aget idj s.delayed = some r → idj ∉ s.waiting →
      aget idj (entries.foldl (promoteOne now) s).delayed = some r ∧
        idj ∉ (entries.foldl (promoteOne now) s).waiting := by
  induction entries with
  | nil => exact fun s _ h1 h2 => ⟨h1, h2⟩
  | cons p rest ih =>
      intro s hval h1 h2
      simp only [List.foldl_cons]
      have hvalr : ∀ u, (idj, u) ∈ rest → u = r := fun u hu =>
        hval u (List.mem_cons_of_mem p hu)
      by_cases hready : p.2 ≤ now
      · by_cases hpj : p.1 = idj
        · have hvr : p.2 = r := by
            apply hval p.2
            rw [← hpj]
            exact List.mem_cons_self p rest
          exact absurd hready (by omega)
        · cases hrec : aget p.1 s.jobs with
          | none =>
              rw [promoteOne_noRecord now s p hrec]
              exact ih s hvalr h1 h2
          | some job =>
              rw [promoteOne_ready now s p job hready hrec]
              refine ih _ hvalr ?_ ?_
              · show aget idj (adel p.1 s.delayed) = some r
                rw [aget_adel_ne _ _ _ (fun hc => hpj hc.symm)]
                exact h1
              · show idj ∉ p.1 :: s.waiting
                intro hc
                rcases List.mem_cons.mp hc with hc | hc
                · exact hpj hc.symm
                · exact h2 hc
      · rw [promoteOne_notReady now s p hready]
        exact ih s hvalr h1 h2

/-- One serialized step at a time strictly before the ready-time preserves
`P7`. -/
theorem step_P7 (cfg : QueueConfig) (t idj r : Nat) (st st1 : QueueState)
    (hB : Base st) (hlt : t < r) (hP : P7 idj r st)
    (h : Step cfg t st st1) : P7 idj r st1 := by
  obtain ⟨h1, h2, h3⟩ := hP
  have hbound : idj < st.nextId := by
    apply hB.pendBound
    unfold allIds
    refine List.mem_append.mpr (Or.inl (List.mem_append.mpr (Or.inr ?_)))
    rcases aget_mem idj r st.delayed h1 with hm
    exact List.mem_map_of_mem Prod.fst hm
  cases h with
  | enqueue name data o j st st1 hadd =>
      obtain ⟨-, hj, hdel, hnodel⟩ := add_ok_inv _ _ _ _ _ _ _ _ hadd
      have hne : idj ≠ st.nextId := by omega
      by_cases hd : (mergeOpts cfg o).delay > 0
      · rw [hdel hd]
        exact ⟨by
          show aget idj (aset st.nextId _ st.delayed) = some r
          rw [aget_aset_ne _ _ _ _ hne]
          exact h1, h2, h3⟩
      · rw [hnodel hd]
        refine ⟨h1, ?_, h3⟩
        show idj ∉ st.nextId :: st.waiting
        intro hc
        rcases List.mem_cons.mp hc with hc | hc
        · exact hne hc
        · exact h2 hc
  | dequeue st =>
      cases hw : st.waiting with
      | nil =>
          rw [getNextJob_empty t st hw]
          show P7 idj r (st.delayed.foldl (promoteOne t) st)
          have hkeysnd : (st.delayed.map Prod.fst).Nodup := by
            have hd := hB.distinct
            unfold allIds at hd
            exact ((List.nodup_append.mp (List.nodup_append.mp hd).1).2).1
          have hval : ∀ u, (idj, u) ∈ st.delayed → u = r :=
            aget_unique_value idj r st.delayed hkeysnd h1
          obtain ⟨g1, g2⟩ := promoteFold_P7 t idj r hlt st.delayed st hval h1 h2
          refine ⟨g1, g2, ?_⟩
          have hframe := promoteFold_frame t st.delayed st
          rw [hframe.1]
          exact h3
      | cons jid rest =>
          have hjne : jid ≠ idj := by
            intro hc
            apply h2
            rw [hw, ← hc]
            exact List.mem_cons_self _ _
          have hrest : idj ∉ rest := by
            intro hc
            exact h2 (by rw [hw]; exact List.mem_cons_of_mem _ hc)
          cases hrec : aget jid st.jobs with
          | none =>
              rw [getNextJob_pop_miss t jid rest st hw hrec]
              exact ⟨h1, hrest, h3⟩
          | some job =>
              rw [getNextJob_pop_hit t jid rest st job hw hrec]
              refine ⟨h1, hrest, ?_⟩
              show idj ∉ sadd jid st.active
              intro hc
              rcases (mem_sadd_iff _ _ _).mp hc with hc | hc
              · exact h3 hc
              · exact hjne hc.symm
  | complete jobId res st st1 hm hok =>
      obtain ⟨job, -, hst1⟩ := completeJob_ok_inv _ _ _ _ _ hok
      rw [hst1]
      refine ⟨h1, h2, ?_⟩
      show idj ∉ srem jobId st.active
      intro hc
      exact h3 ((mem_srem_iff _ _ _).mp hc).1
  | fail jobId e st st1 hm hok =>
      obtain ⟨job, -, hcase⟩ := failJob_ok_inv _ _ _ _ _ _ hok
      have hne : jobId ≠ idj := fun hc => h3 (hc ▸ hm)
      rcases hcase with ⟨-, hst1⟩ | ⟨-, hst1⟩ <;> rw [hst1]
      · refine ⟨?_, h2, ?_⟩
        · show aget idj (aset jobId _ st.delayed) = some r
          rw [aget_aset_ne _ _ _ _ (fun hc => hne hc.symm)]
          exact h1
        · show idj ∉ srem jobId st.active
          intro hc
          exact h3 ((mem_srem_iff _ _ _).mp hc).1
      · refine ⟨h1, h2, ?_⟩
        show idj ∉ srem jobId st.active
        intro hc
        exact h3 ((mem_srem_iff _ _ _).mp hc).1

/-- A dequeue can only return a job popped off the waiting list, so never
the job protected by `P7`. -/
theorem getNextJob_not_idj (st : QueueState) (idj r t : Nat) (hB : Base st)
    (hP : P7 idj r st) (jb : Job) (hres : (getNextJob t st).1 = some jb) :
    jb.id ≠ idj := by
  cases hw : st.waiting with
  | nil =>
      rw [getNextJob_empty t st hw] at hres
      cases hres
  | cons jid rest =>
      cases hrec : aget jid st.jobs with
      | none =>
          rw [getNextJob_pop_miss t jid rest st hw hrec] at hres
          cases hres
      | some job =>
          rw [getNextJob_pop_hit t jid rest st job hw hrec] at hres
          have hjb : jb = { job with status := .active, startedAt := some t } := by
            simpa using hres.symm
          have hid : job.id = jid := aget_id_eq jid job st.jobs hB.ids hrec
          rw [hjb]
          show job.id ≠ idj
          rw [hid]
          intro hc
          apply hP.2.1
          rw [hw, ← hc]
          exact List.mem_cons_self _ _

/-- Finitely many serialized operations, each at a time strictly below `r`. -/
def StepsBefore (cfg : QueueConfig) (r : Nat) (st st1 : QueueState) : Prop :=
  Relation.ReflTransGen (fun s s1 => ∃ t, t < r ∧ Step cfg t s s1) st st1

/-- Well-formedness and `P7` persist along any such trace. -/
theorem stepsBefore_preserves (cfg : QueueConfig) (r : Nat)
    (st st1 : QueueState) (h : StepsBefore cfg r st st1) (idj : Nat)
    (hB : Base st) (hP : P7 idj r st) : Base st1 ∧ P7 idj r st1 := by
  induction h with
  | refl => exact ⟨hB, hP⟩
  | tail hsteps hstep ih =>
      obtain ⟨t, hlt, hs⟩ := hstep
      obtain ⟨hB1, hP1⟩ := ih
      exact ⟨base_step _ _ _ _ hB1 hs, step_P7 _ _ _ _ _ _ hB1 hlt hP1 hs⟩

/-- C7: a job enqueued with a positive delay `D` at time `t0` into a
reachable queue is never returned by any `dequeue()` call made before
`t0 + D`, however many serialized queue operations (all before `t0 + D`)
intervene. -/
theorem C7_delayed_job_not_dequeued_before_ready (cfg : QueueConfig)
    (st st1 st2 : QueueState) (t0 : Nat) (name data : String) (o : JobOptions)
    (j : Job) (D t : Nat) (jb : Job)
    (hreach : Reach cfg st)
    (hadd : add cfg st t0 name data o = .ok (j, st1))
    (hD : (mergeOpts cfg o).delay = D) (hDpos : 0 < D)
    (hsteps : StepsBefore cfg (t0 + D) st1 st2)
    (_ht : t < t0 + D)
    (hres : (getNextJob t st2).1 = some jb) :
    jb.id ≠ j.id := by
  have hB := reach_base cfg st hreach
  have hB1 : Base st1 := base_add _ _ _ _ _ _ _ _ hB hadd
  obtain ⟨-, hj, hdel, -⟩ := add_ok_inv _ _ _ _ _ _ _ _ hadd
  have hjid : j.id = st.nextId := by rw [hj]
  have hP1 : P7 j.id (t0 + D) st1 := by
    rw [hdel (by omega)]
    refine ⟨?_, ?_, ?_⟩
    · show aget j.id
        (aset st.nextId (t0 + (mergeOpts cfg o).delay) st.delayed) =
          some (t0 + D)
      rw [hjid, hD]
      exact aget_aset_self _ _ _
    · show j.id ∉ st.waiting
      rw [hjid]
      exact fun hc => lt_irrefl _ (hB.pendBound _ (by simp [allIds, hc]))
    · show j.id ∉ st.active
      rw [hjid]
      exact fun hc => lt_irrefl _ (hB.pendBound _ (by simp [allIds, hc]))
  obtain ⟨hB2, hP2⟩ :=
    stepsBefore_preserves cfg (t0 + D) st1 st2 hsteps j.id hB1 hP1
  exact getNextJob_not_idj st2 j.id (t0 + D) t hB2 hP2 jb hres

/-- Reachable one-job state: a priority-0, no-delay job enqueued at time 0. -/
def stC7a : QueueState :=
  { emptyQS with
      waiting := [0]
      jobs := [(0, { id := 0, name := "a", data := "x", status := .waiting
                     priority := 0, attempts := 0, maxAttempts := 3
                     createdAt := 0 })]
      nextId := 1 }

/-- The job enqueued with `delay = 5` at time 0 on top of `stC7a`. -/
def jC7 : Job :=
  { id := 1, name := "b", data := "y", status := .delayed, priority := 0
    attempts := 0, maxAttempts := 3, createdAt := 0 }

/-- `stC7a` after that delayed enqueue. -/
def stC7b : QueueState :=
  { stC7a with
      delayed := [(1, 5)]
      jobs := stC7a.jobs ++ [(1, jC7)]
      nextId := 2 }

/-- The job a dequeue at time 3 returns from `stC7b` (the waiting job 0). -/
def jbC7 : Job :=
  { id := 0, name := "a", data := "x", status := .active, priority := 0
    attempts := 0, maxAttempts := 3, createdAt := 0, startedAt := some 3 }

/-- Witness for C7: the dequeue at time 3 (before ready-time 5) returns job
0, not the delayed job 1. -/
theorem C7_delayed_job_not_dequeued_before_ready_witness :
    jbC7.id ≠ jC7.id :=
  C7_delayed_job_not_dequeued_before_ready cfgDefault stC7a stC7b stC7b 0
    "b" "y" { delay := some 5 } jC7 5 3 jbC7
    (Reach.step 0 Reach.init
      (Step.enqueue "a" "x" {}
        { id := 0, name := "a", data := "x", status := .waiting, priority := 0
          attempts := 0, maxAttempts := 3, createdAt := 0 }
        emptyQS stC7a rfl))
    rfl rfl (by decide) Relation.ReflTransGen.refl (by decide) rfl

/-! ## C6: attempts bookkeeping -/

/-- Per-record attempts bookkeeping: a failed record has exhausted its
attempts, any other record still has at least one left. -/
def Recs (st : QueueState) : Prop :=
  ∀ p ∈ st.jobs,
    ((p.2).status = .failed → (p.2).attempts = (p.2).maxAttempts) ∧
    ((p.2).status ≠ .failed → (p.2).attempts < (p.2).maxAttempts)

/-- No tracked (waiting / delayed / active) id points at a failed record. -/
def PartOk (st : QueueState) : Prop :=
  ∀ x ∈ allIds st, ∀ jb, aget x st.jobs = some jb → jb.status ≠ .failed

/-- The promotion fold preserves the attempts bookkeeping (and
well-formedness, and permutes the tracked ids). -/
theorem promoteFold_inv6 (now : Nat) (entries : List (Nat × Nat)) :
    ∀ s : QueueState, entries.Sublist s.delayed → Base s → Recs s →
      PartOk s →
      Base (entries.foldl (promoteOne now) s) ∧
      Recs (entries.foldl (promoteOne now) s) ∧
      PartOk (entries.foldl (promoteOne now) s) ∧
      (allIds (entries.foldl (promoteOne now) s)).Perm (allIds s) := by
  induction entries with
  | nil => exact fun s _ hB hR hP => ⟨hB, hR, hP, List.Perm.refl _⟩
  | cons p rest ih =>
      intro s hsub hB hR hP
      simp only [List.foldl_cons]
      have hrest : rest.Sublist s.delayed := List.sublist_of_cons_sublist hsub
      by_cases hready : p.2 ≤ now
      · cases hrec : aget p.1 s.jobs with
        | none =>
            rw [promoteOne_noRecord now s p hrec]
            exact ih s hrest hB hR hP
        | some job =>
            rw [promoteOne_ready now s p job hready hrec]
            have hkeysnd : (s.delayed.map Prod.fst).Nodup := by
              have hd := hB.distinct
              unfold allIds at hd
              exact ((List.nodup_append.mp (List.nodup_append.mp hd).1).2).1
            have hpmem : p ∈ s.delayed := hsub.subset (List.mem_cons_self p rest)
            have hpk : p.1 ∈ s.delayed.map Prod.fst :=
              List.mem_map_of_mem Prod.fst hpmem
            have hpall : p.1 ∈ allIds s := by
              unfold allIds
              exact List.mem_append.mpr
                (Or.inl (List.mem_append.mpr (Or.inr hpk)))
            have hnotfailed : job.status ≠ .failed := hP p.1 hpall job hrec
            have hjobmem : (p.1, job) ∈ s.jobs := aget_mem _ _ _ hrec
            have hattlt : job.attempts < job.maxAttempts :=
              ((hR (p.1, job) hjobmem).2) hnotfailed
            have hjid : job.id = p.1 := aget_id_eq p.1 job s.jobs hB.ids hrec
            set s1 : QueueState :=
              { s with jobs := aset p.1 { job with status := .waiting } s.jobs
                       waiting := p.1 :: s.waiting
                       delayed := adel p.1 s.delayed } with hs1
            have hperm1 : (allIds s1).Perm (allIds s) := by
              show ((p.1 :: s.waiting) ++ (adel p.1 s.delayed).map Prod.fst ++
                s1.active).Perm (allIds s)
              rw [keys_adel]
              have q2 : (s.active = s1.active) := rfl
              rw [← q2]
              have q3 : ((p.1 :: s.waiting) ++
                  (s.delayed.map Prod.fst).filter (fun x => x ≠ p.1) ++
                    s.active) =
                  p.1 :: (s.waiting ++
                    (s.delayed.map Prod.fst).filter (fun x => x ≠ p.1) ++
                      s.active) := rfl
              rw [q3]
              have p3 : (s.delayed.map Prod.fst).Perm
                  (p.1 :: (s.delayed.map Prod.fst).filter (fun x => x ≠ p.1)) :=
                perm_cons_filter_ne p.1 _ hkeysnd hpk
              have p4 : ((s.waiting ++ s.delayed.map Prod.fst) ++ s.active).Perm
                  ((s.waiting ++ (p.1 ::
                    (s.delayed.map Prod.fst).filter (fun x => x ≠ p.1))) ++
                      s.active) :=
                List.Perm.append_right s.active (List.Perm.append_left s.waiting p3)
              have p5 : (s.waiting ++ (p.1 ::
                  (s.delayed.map Prod.fst).filter (fun x => x ≠ p.1))).Perm
                    (p.1 :: (s.waiting ++
                      (s.delayed.map Prod.fst).filter (fun x => x ≠ p.1))) :=
                List.perm_middle
              have p6 := (List.Perm.append_right s.active p5).symm
              refine List.Perm.trans ?_ (p6.trans p4.symm)
              exact List.Perm.refl _
            have hB1 : Base s1 := by
              refine ⟨?_, ?_, ?_, ?_⟩
              · exact IdsOk_aset _ _ _ hB.ids (by simpa using hjid)
              · show ∀ q ∈ aset p.1 _ s.jobs, q.1 < s.nextId
                exact jobsBound_of_keys s.jobs _ s.nextId
                  (keys_aset_present _ _ _ (aget_some_any _ _ _ hrec))
                  hB.jobsBound
              · intro x hx
                exact hB.pendBound x (hperm1.mem_iff.mp hx)
              · exact (List.Perm.nodup_iff hperm1).mpr hB.distinct
            have hR1 : Recs s1 := by
              intro q hq
              rcases mem_aset _ _ _ _ hq with hq | hq
              · exact hR q hq
              · rw [hq]
                refine ⟨fun hc => absurd hc (by simp), fun _ => ?_⟩
                simpa using hattlt
            have hP1 : PartOk s1 := by
              intro x hx jb hjb
              by_cases hxp : x = p.1
              · rw [hxp] at hjb
                have : jb = { job with status := JStatus.waiting } := by
                  have := aget_aset_self p.1 { job with status := JStatus.waiting }
                    s.jobs
                  rw [show s1.jobs = aset p.1
                    { job with status := JStatus.waiting } s.jobs from rfl] at hjb
                  rw [this] at hjb
                  exact (Option.some.injEq _ _ ▸ hjb : _ = _).symm
                rw [this]
                simp
              · rw [show s1.jobs = aset p.1
                  { job with status := JStatus.waiting } s.jobs from rfl,
                  aget_aset_ne _ _ _ _ hxp] at hjb
                exact hP x (hperm1.mem_iff.mp hx) jb hjb
            have hsub1 : rest.Sublist s1.delayed := by
              have hkcons : (p.1 :: rest.map Prod.fst).Nodup :=
                List.Nodup.sublist (hsub.map Prod.fst) hkeysnd
              have hnotin : p.1 ∉ rest.map Prod.fst :=
                (List.nodup_cons.mp hkcons).1
              have hfe : rest.filter (fun q => q.1 ≠ p.1) = rest := by
                rw [List.filter_eq_self]
                intro q hq
                have hq1 : q.1 ≠ p.1 := fun hc =>
                  hnotin (hc ▸ List.mem_map_of_mem Prod.fst hq)
                simpa using hq1
              have hstep : List.Sublist (rest.filter (fun q => q.1 ≠ p.1))
                  (s.delayed.filter (fun q => q.1 ≠ p.1)) :=
                List.Sublist.filter _ hrest
              rw [hfe] at hstep
              exact hstep
            obtain ⟨hBf, hRf, hPf, hpermf⟩ := ih s1 hsub1 hB1 hR1 hP1
            exact ⟨hBf, hRf, hPf, hpermf.trans hperm1⟩
      · rw [promoteOne_notReady now s p hready]
        exact ih s hrest hB hR hP

/-- An enqueue granting at least one attempt preserves the bookkeeping. -/
theorem inv6_add (cfg : QueueConfig) (st : QueueState) (now : Nat)
    (name data : String) (o : JobOptions) (j : Job) (st1 : QueueState)
    (hB : Base st) (hR : Recs st) (hP : PartOk st)
    (hga : 1 ≤ (mergeOpts cfg o).attempts)
    (h : add cfg st now name data o = .ok (j, st1)) :
    Recs st1 ∧ PartOk st1 := by
  obtain ⟨-, hj, hdel, hnodel⟩ := add_ok_inv _ _ _ _ _ _ _ _ h
  have hstatus : j.status ≠ .failed := by
    rw [hj]
    by_cases hd : (mergeOpts cfg o).delay > 0 <;> simp [hd]
  have hatt : j.attempts < j.maxAttempts := by
    rw [hj]
    show (0 : Nat) < (mergeOpts cfg o).attempts
    omega
  have hnall : st.nextId ∉ allIds st := fun hc =>
    lt_irrefl _ (hB.pendBound _ hc)
  have hnd : st.nextId ∉ st.delayed.map Prod.fst := fun hc =>
    hnall (by simp [allIds, hc])
  have hRcore : ∀ q ∈ aset st.nextId j st.jobs,
      ((q.2).status = .failed → (q.2).attempts = (q.2).maxAttempts) ∧
      ((q.2).status ≠ .failed → (q.2).attempts < (q.2).maxAttempts) := by
    intro q hq
    rcases mem_aset _ _ _ _ hq with hq | hq
    · exact hR q hq
    · rw [hq]
      exact ⟨fun hc => absurd hc hstatus, fun _ => hatt⟩
  have hPcore : ∀ x, (x ∈ allIds st ∨ x = st.nextId) → ∀ jb : Job,
      aget x (aset st.nextId j st.jobs) = some jb → jb.status ≠ .failed := by
    intro x hx jb hjb
    by_cases hxn : x = st.nextId
    · rw [hxn, aget_aset_self] at hjb
      injection hjb with hjb
      rw [← hjb]
      exact hstatus
    · rw [aget_aset_ne _ _ _ _ hxn] at hjb
      rcases hx with hx | hx
      · exact hP x hx jb hjb
      · exact absurd hx hxn
  by_cases hd : (mergeOpts cfg o).delay > 0
  · rw [hdel hd]
    have hany : ¬ st.delayed.any (fun p => p.1 = st.nextId) = true := by
      intro hc
      simp only [List.any_eq_true, decide_eq_true_eq] at hc
      obtain ⟨q, hq, hqe⟩ := hc
      exact hnd (hqe ▸ List.mem_map_of_mem Prod.fst hq)
    have hkeys : (aset st.nextId (now + (mergeOpts cfg o).delay)
        st.delayed).map Prod.fst = st.delayed.map Prod.fst ++ [st.nextId] :=
      keys_aset_absent _ _ _ hany
    refine ⟨fun q hq => hRcore q hq, ?_⟩
    intro x hx jb hjb
    refine hPcore x ?_ jb hjb
    unfold allIds at hx ⊢
    dsimp only at hx
    rw [hkeys] at hx
    simp only [List.mem_append, List.mem_singleton] at hx ⊢
    tauto
  · rw [hnodel hd]
    refine ⟨fun q hq => hRcore q hq, ?_⟩
    intro x hx jb hjb
    refine hPcore x ?_ jb hjb
    unfold allIds at hx ⊢
    dsimp only at hx
    simp only [List.mem_append, List.mem_cons] at hx ⊢
    tauto

/-- `getNextJob` preserves the bookkeeping. -/
theorem inv6_dequeue (now : Nat) (st : QueueState) (hB : Base st)
    (hR : Recs st) (hP : PartOk st) :
    Recs (getNextJob now st).2 ∧ PartOk (getNextJob now st).2 := by
  cases hw : st.waiting with
  | nil =>
      rw [getNextJob_empty now st hw]
      have hfold := promoteFold_inv6 now st.delayed st (List.Sublist.refl _)
        hB hR hP
      exact ⟨hfold.2.1, hfold.2.2.1⟩
  | cons jid rest =>
      have hjall : jid ∈ allIds st := by
        unfold allIds
        rw [hw]
        simp
      cases hrec : aget jid st.jobs with
      | none =>
          rw [getNextJob_pop_miss now jid rest st hw hrec]
          refine ⟨hR, ?_⟩
          intro x hx jb hjb
          refine hP x ?_ jb hjb
          unfold allIds at hx ⊢
          dsimp only at hx
          simp only [List.mem_append] at hx ⊢
          rcases hx with (hx | hx) | hx
          · refine Or.inl (Or.inl ?_)
            rw [hw]
            exact List.mem_cons_of_mem _ hx
          · exact Or.inl (Or.inr hx)
          · exact Or.inr hx
      | some job =>
          rw [getNextJob_pop_hit now jid rest st job hw hrec]
          have hnf : job.status ≠ .failed := hP jid hjall job hrec
          have hlt : job.attempts < job.maxAttempts :=
            (hR (jid, job) (aget_mem _ _ _ hrec)).2 hnf
          constructor
          · intro q hq
            dsimp only at hq
            rcases mem_aset _ _ _ _ hq with hq | hq
            · exact hR q hq
            · rw [hq]
              exact ⟨fun hc => absurd hc (by simp),
                fun _ => by simpa using hlt⟩
          · intro x hx jb hjb
            by_cases hxj : x = jid
            · rw [hxj] at hjb
              dsimp only at hjb
              rw [aget_aset_self] at hjb
              injection hjb with hjb
              rw [← hjb]
              simp
            · dsimp only at hjb
              rw [aget_aset_ne _ _ _ _ hxj] at hjb
              refine hP x ?_ jb hjb
              unfold allIds at hx ⊢
              dsimp only at hx
              simp only [List.mem_append] at hx ⊢
              rcases hx with (hx | hx) | hx
              · refine Or.inl (Or.inl ?_)
                rw [hw]
                exact List.mem_cons_of_mem _ hx
              · exact Or.inl (Or.inr hx)
              · rcases (mem_sadd_iff jid x st.active).mp hx with hxa | hxa
                · exact Or.inr hxa
                · exact absurd hxa hxj

/-- `completeJob` on an active job preserves the bookkeeping. -/
theorem inv6_complete (now jobId : Nat) (res : String) (st st1 : QueueState)
    (_hB : Base st) (hR : Recs st) (hP : PartOk st) (hm : jobId ∈ st.active)
    (h : completeJob now jobId res st = .ok st1) : Recs st1 ∧ PartOk st1 := by
  obtain ⟨job, hrec, hst1⟩ := completeJob_ok_inv _ _ _ _ _ h
  have hjall : jobId ∈ allIds st := by
    unfold allIds
    exact List.mem_append.mpr (Or.inr hm)
  have hnf : job.status ≠ .failed := hP jobId hjall job hrec
  have hlt : job.attempts < job.maxAttempts :=
    (hR (jobId, job) (aget_mem _ _ _ hrec)).2 hnf
  rw [hst1]
  constructor
  · intro q hq
    dsimp only at hq
    rcases mem_aset _ _ _ _ hq with hq | hq
    · exact hR q hq
    · rw [hq]
      exact ⟨fun hc => absurd hc (by simp), fun _ => by simpa using hlt⟩
  · intro x hx jb hjb
    by_cases hxj : x = jobId
    · rw [hxj] at hjb
      dsimp only at hjb
      rw [aget_aset_self] at hjb
      injection hjb with hjb
      rw [← hjb]
      simp
    · dsimp only at hjb
      rw [aget_aset_ne _ _ _ _ hxj] at hjb
      refine hP x ?_ jb hjb
      unfold allIds at hx ⊢
      dsimp only at hx
      simp only [List.mem_append] at hx ⊢
      rcases hx with (hx | hx) | hx
      · exact Or.inl (Or.inl hx)
      · exact Or.inl (Or.inr hx)
      · exact Or.inr ((mem_srem_iff _ _ _).mp hx).1

/-- `failJob` on an active job preserves the bookkeeping. -/
theorem inv6_fail (cfg : QueueConfig) (now jobId : Nat) (e : String)
    (st st1 : QueueState) (hB : Base st) (hR : Recs st) (hP : PartOk st)
    (hm : jobId ∈ st.active) (h : failJob cfg now jobId e st = .ok st1) :
    Recs st1 ∧ PartOk st1 := by
  obtain ⟨job, hrec, hcase⟩ := failJob_ok_inv _ _ _ _ _ _ h
  have hjall : jobId ∈ allIds st := by
    unfold allIds
    exact List.mem_append.mpr (Or.inr hm)
  have hnf : job.status ≠ .failed := hP jobId hjall job hrec
  have hlt : job.attempts < job.maxAttempts :=
    (hR (jobId, job) (aget_mem _ _ _ hrec)).2 hnf
  have hdisj := (List.nodup_append.mp hB.distinct).2.2
  have hndk : jobId ∉ st.waiting ++ st.delayed.map Prod.fst := fun hc =>
    hdisj hc hm
  rcases hcase with ⟨hltm, hst1⟩ | ⟨hgem, hst1⟩
  · rw [hst1]
    have hanyd : ¬ st.delayed.any (fun p => p.1 = jobId) = true := by
      intro hc
      simp only [List.any_eq_true, decide_eq_true_eq] at hc
      obtain ⟨q, hq, hqe⟩ := hc
      exact hndk (List.mem_append.mpr
        (Or.inr (hqe ▸ List.mem_map_of_mem Prod.fst hq)))
    have hkeysd : (aset jobId
        (now + calculateRetryDelay cfg (job.attempts + 1))
          st.delayed).map Prod.fst = st.delayed.map Prod.fst ++ [jobId] :=
      keys_aset_absent _ _ _ hanyd
    constructor
    · intro q hq
      dsimp only at hq
      rcases mem_aset _ _ _ _ hq with hq | hq
      · exact hR q hq
      · rw [hq]
        exact ⟨fun hc => absurd hc (by simp), fun _ => by simpa using hltm⟩
    · intro x hx jb hjb
      by_cases hxj : x = jobId
      · rw [hxj] at hjb
        dsimp only at hjb
        rw [aget_aset_self] at hjb
        injection hjb with hjb
        rw [← hjb]
        simp
      · dsimp only at hjb
        rw [aget_aset_ne _ _ _ _ hxj] at hjb
        refine hP x ?_ jb hjb
        unfold allIds at hx ⊢
        dsimp only at hx
        rw [hkeysd] at hx
        simp only [List.mem_append, List.mem_singleton] at hx ⊢
        rcases hx with (hx | hx | hx) | hx
        · exact Or.inl (Or.inl hx)
        · exact Or.inl (Or.inr hx)
        · exact absurd hx hxj
        · exact Or.inr ((mem_srem_iff _ _ _).mp hx).1
  · rw [hst1]
    have heq : job.attempts + 1 = job.maxAttempts := by omega
    constructor
    · intro q hq
      dsimp only at hq
      rcases mem_aset _ _ _ _ hq with hq | hq
      · exact hR q hq
      · rw [hq]
        refine ⟨fun _ => heq, fun hc => absurd rfl hc⟩
    · intro x hx jb hjb
      have hxj : x ≠ jobId := by
        intro hc
        rw [hc] at hx
        unfold allIds at hx
        dsimp only at hx
        simp only [List.mem_append] at hx
        rcases hx with (hx | hx) | hx
        · exact hndk (List.mem_append.mpr (Or.inl hx))
        · exact hndk (List.mem_append.mpr (Or.inr hx))
        · exact not_mem_srem _ _ hx
      dsimp only at hjb
      rw [aget_aset_ne _ _ _ _ hxj] at hjb
      refine hP x ?_ jb hjb
      unfold allIds at hx ⊢
      dsimp only at hx
      simp only [List.mem_append] at hx ⊢
      rcases hx with (hx | hx) | hx
      · exact Or.inl (Or.inl hx)
      · exact Or.inl (Or.inr hx)
      · exact Or.inr ((mem_srem_iff _ _ _).mp hx).1

/-- Every state reachable with at-least-one-attempt enqueues keeps the
attempts bookkeeping (and is well-formed). -/
theorem inv6_step (cfg : QueueConfig) (t : Nat) (st st1 : QueueState)
    (hB : Base st) (hR : Recs st) (hP : PartOk st)
    (hs : GStep cfg t st st1) : Recs st1 ∧ PartOk st1 := by
  cases hs with
  | enqueue name data o j s s1 hga hadd =>
      exact inv6_add _ _ _ _ _ _ _ _ hB hR hP hga hadd
  | dequeue s => exact inv6_dequeue t _ hB hR hP
  | complete jobId res s s1 hm hok =>
      exact inv6_complete _ _ _ _ _ hB hR hP hm hok
  | fail jobId e s s1 hm hok =>
      exact inv6_fail _ _ _ _ _ _ hB hR hP hm hok

theorem greach_inv6 (cfg : QueueConfig) (st : QueueState)
    (h : GReach cfg st) : Base st ∧ Recs st ∧ PartOk st := by
  induction h with
  | init =>
      refine ⟨reach_base cfg emptyQS Reach.init, ?_, ?_⟩
      · intro p hp
        cases hp
      · intro x hx
        cases hx
  | step t hr hs ih =>
      obtain ⟨hB, hR, hP⟩ := ih
      obtain ⟨h1, h2⟩ := inv6_step _ _ _ _ hB hR hP hs
      exact ⟨base_step _ _ _ _ hB hs.toStep, h1, h2⟩

/-- C6 counterexample: the claim fails on the code because `add` accepts
`attempts: 0`.  Enqueue such a job, dequeue it, fail it once: the resulting
(reachable) state stores the job with `attempts = 1 > 0 = maxAttempts` and
status `failed` with `attempts ≠ maxAttempts`. -/
theorem C6_zero_maxAttempts_counterexample :
    ∃ j s1 s3,
      add cfgDefault emptyQS 0 "n" "d" { attempts := some 0 } = .ok (j, s1) ∧
      failJob cfgDefault 2 0 "boom" (getNextJob 1 s1).2 = .ok s3 ∧
      Reach cfgDefault s3 ∧
      (aget 0 s3.jobs).map Job.attempts = some 1 ∧
      (aget 0 s3.jobs).map Job.maxAttempts = some 0 ∧
      (aget 0 s3.jobs).map Job.status = some JStatus.failed := by
  refine ⟨_, _, _, rfl, rfl, ?_, ?_, ?_, ?_⟩
  · exact Reach.step 2
      (Reach.step 1
        (Reach.step 0 Reach.init
          (Step.enqueue "n" "d" { attempts := some 0 } _ emptyQS _ rfl))
        (Step.dequeue _))
      (Step.fail 0 "boom" _ _ (by decide) rfl)
  · rfl
  · rfl
  · rfl

/-- C6 (amended): in every reachable state all of whose enqueues granted at
least one attempt (`maxAttempts ≥ 1`; the queue default is 3), every stored
job satisfies `attempts ≤ maxAttempts`, and a job with status `Failed` has
`attempts = maxAttempts`. -/
theorem C6_attempts_le_max (cfg : QueueConfig) (st : QueueState)
    (hg : GReach cfg st) (k : Nat) (jb : Job)
    (hget : aget k st.jobs = some jb) :
    jb.attempts ≤ jb.maxAttempts ∧
      (jb.status = .failed → jb.attempts = jb.maxAttempts) := by
  obtain ⟨-, hR, -⟩ := greach_inv6 cfg st hg
  obtain ⟨h1, h2⟩ := hR (k, jb) (aget_mem _ _ _ hget)
  refine ⟨?_, h1⟩
  by_cases hf : jb.status = .failed
  · exact le_of_eq (h1 hf)
  · exact le_of_lt (h2 hf)

/-- The job record enqueued in the C6 witness state. -/
def jC6 : Job :=
  { id := 0, name := "a", data := "x", status := .waiting, priority := 0
    attempts := 0, maxAttempts := 3, createdAt := 0 }

/-- Witness for C6 (amended) after one default-option enqueue. -/
theorem C6_attempts_le_max_witness :
    jC6.attempts ≤ jC6.maxAttempts ∧
      (jC6.status = .failed → jC6.attempts = jC6.maxAttempts) :=
  C6_attempts_le_max cfgDefault stC7a
    (GReach.step 0 GReach.init
      (GStep.enqueue "a" "x" {} jC6 emptyQS stC7a (by decide) rfl))
    0 jC6 rfl

end AiDev
